/-
Verification of the pdf2markdown legacy converter
(`pdf2markdown/legacy/pdf_to_markdown.py`) against its natural-language
specification.

The Python code is shallowly embedded: strings become `List Char` / `String`,
floats become `ℚ`, the mutable converter state is made explicit, and the
regular expressions of the source (which are all anchored character-class
patterns) are translated into executable recognizers over `List Char`.
-/
import Mathlib

set_option linter.unusedVariables false

namespace Presso

/-! ## Character classes

Character-level predicates used by `normalize_text`, `detect_block_type` and
`restore_deformed_text`.  The regex classes of the source are explicit
character lists (ASCII plus the Vietnamese accented alphabet), transcribed
verbatim.  Predicates that stand for library calls (`unicodedata.category`,
`str.isspace`, `\w`, `\p{L}`, `str.lower`) are modelled over the code-point
ranges exercised by this development (ASCII, Latin-1 punctuation, general
punctuation, and the Latin letters used by the source's own classes). -/

/-- The lowercase character class of the source's inter-word regex:
`a-z` plus the Vietnamese accented lowercase letters, exactly the characters
written in the pattern on line 81 of the source. -/
def lowerClassList : List Char :=
  ['a','b','c','d','e','f','g','h','i','j','k','l','m','n','o','p','q','r',
   's','t','u','v','w','x','y','z',
   'à','á','ả','ã','ạ','ă','ắ','ằ','ẳ','ẵ','ặ','â','ấ','ầ','ẩ','ẫ','ậ',
   'è','é','ẻ','ẽ','ẹ','ê','ế','ề','ể','ễ','ệ','ì','í','ỉ','ĩ','ị',
   'ò','ó','ỏ','õ','ọ','ô','ố','ồ','ổ','ỗ','ộ','ơ','ớ','ờ','ở','ỡ','ợ',
   'ù','ú','ủ','ũ','ụ','ư','ứ','ừ','ử','ữ','ự','ỳ','ý','ỷ','ỹ','ỵ','đ']

/-- The uppercase character class of the source's regexes:
`A-Z` plus the Vietnamese accented uppercase letters (lines 81, 85, 136, 137). -/
def upperClassList : List Char :=
  ['A','B','C','D','E','F','G','H','I','J','K','L','M','N','O','P','Q','R',
   'S','T','U','V','W','X','Y','Z',
   'À','Á','Ả','Ã','Ạ','Ă','Ắ','Ằ','Ẳ','Ẵ','Ặ','Â','Ấ','Ầ','Ẩ','Ẫ','Ậ',
   'È','É','Ẻ','Ẽ','Ẹ','Ê','Ế','Ề','Ể','Ễ','Ệ','Ì','Í','Ỉ','Ĩ','Ị',
   'Ò','Ó','Ỏ','Õ','Ọ','Ô','Ố','Ồ','Ổ','Ỗ','Ộ','Ơ','Ớ','Ờ','Ở','Ỡ','Ợ',
   'Ù','Ú','Ủ','Ũ','Ụ','Ư','Ứ','Ừ','Ử','Ữ','Ự','Ỳ','Ý','Ỷ','Ỹ','Ỵ','Đ']

/-- Membership in the source's lowercase regex class. -/
def isLowerC (c : Char) : Bool := lowerClassList.contains c

/-- Membership in the source's uppercase regex class. -/
def isUpperC (c : Char) : Bool := upperClassList.contains c

/-- The sentence-ending punctuation class `[.!?]` of line 85. -/
def isSentPunct (c : Char) : Bool := c = '.' || c = '!' || c = '?'

/-- `unicodedata.category(c)[0] == 'C'` (the control/format/surrogate/private
categories), modelled over the Basic Multilingual Plane ranges relevant here:
`Cc` = U+0000–U+001F and U+007F–U+009F, plus the common `Cf` code points
(soft hyphen, Arabic format marks, zero-width and directional marks, BOM)
and the `Cs`/`Co` blocks. -/
def isCatC (c : Char) : Bool :=
  c.val < 0x20 ||
  (0x7F ≤ c.val && c.val ≤ 0x9F) ||
  c.val = 0xAD ||
  (0x600 ≤ c.val && c.val ≤ 0x605) ||
  (0x200B ≤ c.val && c.val ≤ 0x200F) ||
  (0x202A ≤ c.val && c.val ≤ 0x202E) ||
  (0x2060 ≤ c.val && c.val ≤ 0x2064) ||
  (0x2066 ≤ c.val && c.val ≤ 0x206F) ||
  c.val = 0xFEFF ||
  (0xD800 ≤ c.val && c.val ≤ 0xF8FF) ||
  (0xE000 ≤ c.val && c.val ≤ 0xF8FF)

/-- Python `str.isspace` / regex `\s` (Unicode): ASCII whitespace plus the
Unicode space separators and line separators. -/
def pyIsSpace (c : Char) : Bool :=
  c = ' ' || c = '\t' || c = '\n' || c = '\r' ||
  c.val = 0x0B || c.val = 0x0C ||
  (0x1C ≤ c.val && c.val ≤ 0x1F) ||
  c.val = 0x85 || c.val = 0xA0 || c.val = 0x1680 ||
  (0x2000 ≤ c.val && c.val ≤ 0x200A) ||
  c.val = 0x2028 || c.val = 0x2029 ||
  c.val = 0x202F || c.val = 0x205F || c.val = 0x3000

/-- The horizontal-whitespace class `[ \t]` of lines 105–106. -/
def isST (c : Char) : Bool := c = ' ' || c = '\t'

/-- ASCII digit, the class `[0-9]` / `\d`. -/
def isAsciiDigit (c : Char) : Bool := '0' ≤ c && c ≤ '9'

/-! ## `normalize_text` (source lines 68–112)

Implemented stage by stage over `List Char`, in the order of the source:
control-character removal, the two space-insertion substitutions, the
typographic replacement table, horizontal-whitespace collapsing, per-line
trailing-whitespace trimming, and a final `strip()`. -/

/-- The filter of lines 75–78: keep a character iff its category is not `C`
or it is one of `\n`, `\t`, `\r`. -/
def keepCtrl (c : Char) : Bool := !isCatC c || c = '\n' || c = '\t' || c = '\r'

/-- `re.sub(r'(p)(q)', r'\1 \2', s)` for two single-character classes `p`, `q`:
scan left to right; on a match emit the pair with a space inserted and resume
after the matched pair, exactly as `re.sub` does. -/
def sub2 (p q : Char → Bool) : List Char → List Char
  | [] => []
  | [c] => [c]
  | c₁ :: c₂ :: rest =>
    if p c₁ && q c₂ then c₁ :: ' ' :: c₂ :: sub2 p q rest
    else c₁ :: sub2 p q (c₂ :: rest)

/-- Python `str.replace(old, new)` for a single-character `old`. -/
def replaceChar (old : Char) (new : List Char) (s : List Char) : List Char :=
  s.flatMap fun c => if c = old then new else [c]

/-- The replacement table of lines 89–99, in dict insertion order.  The em
dash, en dash and bullet entries map a character to itself. -/
def replacements : List (Char × List Char) :=
  [('—', ['—']),
   ('–', ['–']),
   ('“', ['"']),
   ('”', ['"']),
   ('‘', ['\'']),
   ('’', ['\'']),
   ('…', ['.', '.', '.']),
   ('•', ['•']),
   ('◦', ['◦'])]

/-- The loop of lines 101–102: apply each replacement in table order. -/
def applyReplacements (s : List Char) : List Char :=
  replacements.foldl (fun acc p => replaceChar p.1 p.2 acc) s

/-- `re.sub(r'[ \t]+', ' ', s)` (line 105): collapse every run of spaces and
tabs to a single space.  The flag records whether we are inside a run whose
single space has already been emitted. -/
def collapseST : Bool → List Char → List Char
  | _, [] => []
  | inRun, c :: rest =>
    if isST c then
      if inRun then collapseST true rest
      else ' ' :: collapseST true rest
    else c :: collapseST false rest

/-- `re.sub(r'[ \t]+$', '', s, flags=re.MULTILINE)` (line 106), processed with
an accumulator: `pend` holds (reversed) the current run of spaces/tabs, which
is dropped when the run reaches a `\n` or the end of the string and flushed
otherwise. -/
def trimTrailAux (pend : List Char) : List Char → List Char
  | [] => []
  | c :: rest =>
    if isST c then trimTrailAux (c :: pend) rest
    else if c = '\n' then '\n' :: trimTrailAux [] rest
    else pend.reverse ++ c :: trimTrailAux [] rest

/-- `re.sub(r'[ \t]+$', '', s, flags=re.MULTILINE)` (line 106): drop every run
of spaces/tabs that sits immediately before a `\n` or at the end of the
string. -/
def trimTrail (s : List Char) : List Char := trimTrailAux [] s

/-- Boolean infix test on `List Char` (Python `in` on strings). -/
def isInfixOfCL (needle : List Char) : List Char → Bool
  | [] => needle.isPrefixOf []
  | c :: rest => needle.isPrefixOf (c :: rest) || isInfixOfCL needle rest

/-- Python `str.strip()`: remove leading and trailing Unicode whitespace. -/
def pyStrip (s : List Char) : List Char :=
  ((s.dropWhile pyIsSpace).reverse.dropWhile pyIsSpace).reverse

/-- `normalize_text` (lines 68–112) over `List Char`.  The `try/except` of the
source never fires on the pure pipeline, and the empty-string early return is
subsumed (every stage maps `[]` to `[]`). -/
def normalizeList (s : List Char) : List Char :=
  pyStrip (trimTrail (collapseST false (applyReplacements
    (sub2 isSentPunct isUpperC (sub2 isLowerC isUpperC (s.filter keepCtrl))))))

/-- `normalize_text` on `String`. -/
def normalize_text (s : String) : String := ⟨normalizeList s.data⟩

/-! ## Data model (source lines 31–45) -/

/-- `TextBlock` of the source: a text block with full metadata.  Floating-point
coordinates and font sizes are modelled by `ℚ`. -/
structure TextBlock where
  text : String
  x0 : ℚ
  y0 : ℚ
  x1 : ℚ
  y1 : ℚ
  font_size : ℚ
  font_name : String
  is_bold : Bool
  is_italic : Bool
  block_type : String
  page_num : Nat
deriving DecidableEq, Repr

/-! ## `detect_block_type` (source lines 114–170) -/

/-- Python `str.lower` / `re.IGNORECASE` case folding over the letters used by
the source's patterns (ASCII and the Vietnamese accented alphabet). -/
def pyLowerChar (c : Char) : Char :=
  match (upperClassList.zip lowerClassList).find? (fun p => p.1 = c) with
  | some p => p.2
  | none => c

/-- Charwise `str.lower`. -/
def pyLowerStr (s : List Char) : List Char := s.map pyLowerChar

/-- `\s+\d+` anchored at the start of `s`. -/
def spacesThenDigit (s : List Char) : Bool :=
  decide (s.takeWhile pyIsSpace ≠ []) &&
  (match s.dropWhile pyIsSpace with
   | d :: _ => isAsciiDigit d
   | [] => false)

/-- The keyword alternation of heading pattern 1 (line 135). -/
def headingKeywords : List (List Char) :=
  ["chương".data, "chapter".data, "phần".data, "section".data,
   "mục".data, "đề mục".data]

/-- `re.match(r'^(chương|chapter|phần|section|mục|đề mục)\s+\d+', text,
re.IGNORECASE)`: case-insensitive keyword, then whitespace, then a digit. -/
def matchesHP1 (t : List Char) : Bool :=
  let lt := pyLowerStr t
  headingKeywords.any fun kw => kw.isPrefixOf lt && spacesThenDigit (lt.drop kw.length)

/-- `re.match(r'^\d+\.\s+[A-Z…]', text, re.IGNORECASE)` (line 136).  Under
`re.IGNORECASE` the uppercase-letter class also matches the corresponding
lowercase letters. -/
def matchesHP2 (t : List Char) : Bool :=
  decide (t.takeWhile isAsciiDigit ≠ []) &&
  (match t.dropWhile isAsciiDigit with
   | '.' :: r2 =>
     decide (r2.takeWhile pyIsSpace ≠ []) &&
     (match r2.dropWhile pyIsSpace with
      | c :: _ => isUpperC c || isLowerC c
      | [] => false)
   | _ => false)

/-- The class `[A-Z…\s]` of heading pattern 3 (line 137) under
`re.IGNORECASE`: any-case class letter or whitespace. -/
def inHP3Class (c : Char) : Bool := isUpperC c || isLowerC c || pyIsSpace c

/-- `re.match(r'^[A-Z…\s]{1,100}$', text, re.IGNORECASE)` (line 137): 1 to 100
class characters spanning the whole text (`$` also matches just before one
final newline). -/
def matchesHP3 (t : List Char) : Bool :=
  (1 ≤ t.length && t.length ≤ 100 && t.all inHP3Class) ||
  (2 ≤ t.length && t.length ≤ 101 && t.getLast? == some '\n' &&
     t.dropLast.all inHP3Class)

/-- The heading-pattern loop of lines 134–143. -/
def matchesHeadingPattern (t : List Char) : Bool :=
  matchesHP1 t || matchesHP2 t || matchesHP3 t

/-- ASCII lowercase, the class `[a-z]` of the lettered-list pattern. -/
def isAsciiLower (c : Char) : Bool := 'a' ≤ c && c ≤ 'z'

/-- Regex `\w` (word character) over the letters of this development. -/
def isWordChar (c : Char) : Bool :=
  isAsciiDigit c || c = '_' || isLowerC c || isUpperC c

/-- The class `[\d\w\-\*•◦▪▫]` of the first list pattern (line 150). -/
def isListLead (c : Char) : Bool :=
  isAsciiDigit c || isWordChar c ||
  c = '-' || c = '*' || c = '•' || c = '◦' || c = '▪' || c = '▫'

/-- The bullet class `[-*•◦▪▫]` of the second list pattern (line 151). -/
def isBulletChar (c : Char) : Bool :=
  c = '-' || c = '*' || c = '•' || c = '◦' || c = '▪' || c = '▫'

/-- `^\d+[\.\)]\s+` (line 152). -/
def matchesNumberedList (t : List Char) : Bool :=
  decide (t.takeWhile isAsciiDigit ≠ []) &&
  (match t.dropWhile isAsciiDigit with
   | c :: r => (c = '.' || c = ')') && (match r with
      | d :: _ => pyIsSpace d
      | [] => false)
   | [] => false)

/-- `^[a-z][\.\)]\s+` (line 153). -/
def matchesLetteredList (t : List Char) : Bool :=
  match t with
  | a :: c :: d :: _ => isAsciiLower a && (c = '.' || c = ')') && pyIsSpace d
  | _ => false

/-- The list-pattern loop of lines 149–158. -/
def startsListPattern (t : List Char) : Bool :=
  (match t with
   | c :: d :: _ => isListLead c && pyIsSpace d
   | _ => false) ||
  (match t with
   | c :: d :: _ => isBulletChar c && pyIsSpace d
   | _ => false) ||
  matchesNumberedList t ||
  matchesLetteredList t

/-- The code indicator strings of lines 161–165. -/
def codeIndicators : List (List Char) :=
  ["```".data, "def ".data, "class ".data, "import ".data, "function ".data,
   "var ".data, "const ".data, "public ".data, "private ".data,
   "static ".data, "void ".data, "int ".data, "string ".data,
   "<?php".data, "<?=".data, "<script".data, "</script>".data,
   "SELECT ".data, "FROM ".data]

/-- `any(indicator in text[:50] for indicator in code_indicators)` (line 167). -/
def hasCodeIndicator (t : List Char) : Bool :=
  codeIndicators.any fun ind => isInfixOfCL ind (t.take 50)

/-- `avg_font_size` of line 125: the sum of the positive font sizes on the
page, divided by `max(len(page_blocks), 1)`. -/
def pageMeanFontSize (page_blocks : List TextBlock) : ℚ :=
  ((page_blocks.filter (fun b => 0 < b.font_size)).map (fun b => b.font_size)).sum
    / (max page_blocks.length 1 : ℚ)

/-- `detect_block_type` (lines 114–170).  The `blocks` argument is received
but never read — exactly as in the source, whose body uses only `block` and
`page_blocks`. -/
def detect_block_type (block : TextBlock) (blocks page_blocks : List TextBlock) :
    String :=
  let _ := blocks
  let text := pyStrip block.text.data
  if text = [] then "paragraph"
  else
    let avg := pageMeanFontSize page_blocks
    let is_heading :=
      (avg * (13/10) < block.font_size) ||
      (block.is_bold && text.length < 150 && 12 < block.font_size) ||
      matchesHeadingPattern text
    if is_heading then "heading"
    else if startsListPattern text then "list"
    else if hasCodeIndicator text then "code"
    else "paragraph"

/-! ## `restore_deformed_text` (source lines 172–220)

The `self.stats['restored_texts']` counter is a logging side effect and is not
part of the returned value; the returned text is modelled exactly. -/

/-- `\p{L}` over the letters of this development. -/
def isLetterChar (c : Char) : Bool := isLowerC c || isUpperC c

/-- The maximal `\w`-runs of a string (`cur` holds the current run,
reversed). -/
def wordRuns (cur : List Char) : List Char → List (List Char)
  | [] => if cur = [] then [] else [cur.reverse]
  | c :: rest =>
    if isWordChar c then wordRuns (c :: cur) rest
    else if cur = [] then wordRuns [] rest
    else cur.reverse :: wordRuns [] rest

/-- `regex.findall(r'\b\p{L}+\b', s)`: the maximal word runs consisting
entirely of letters (a run containing a digit or `_` gives no match because
no word boundary splits it). -/
def findLetterWords (s : List Char) : List (List Char) :=
  (wordRuns [] s).filter fun w => w.all isLetterChar

/-- The context-vocabulary construction of lines 179–184 (a set in the source;
modelled as a list, used only through membership). -/
def buildContextWords (context : List String) : List (List Char) :=
  context.foldl
    (fun acc ctx =>
      if ctx.data ≠ [] then acc ++ findLetterWords (pyLowerStr ctx.data) else acc)
    []

/-- Python `str.split()` with no argument: split on whitespace runs,
discarding empty pieces (`cur` holds the current word, reversed). -/
def pySplitAux (cur : List Char) : List Char → List (List Char)
  | [] => if cur = [] then [] else [cur.reverse]
  | c :: rest =>
    if pyIsSpace c then
      if cur = [] then pySplitAux [] rest
      else cur.reverse :: pySplitAux [] rest
    else pySplitAux (c :: cur) rest

/-- Python `str.split()`. -/
def pySplit (s : List Char) : List (List Char) := pySplitAux [] s

/-- The digit→letter fix table of lines 188–193, in dict insertion order. -/
def fixes : List (Char × Char) := [('0', 'O'), ('1', 'I'), ('5', 'S'), ('8', 'B')]

/-- Python `str.isdigit()` over ASCII digits. -/
def pyIsDigitStr (w : List Char) : Bool := decide (w ≠ []) && w.all isAsciiDigit

/-- The inner fix loop of lines 204–210: try each substitution in order and
accept the first whose lowercased result is in the vocabulary. -/
def tryFixes (vocab : List (List Char)) : List (Char × Char) → List Char → List Char
  | [], w => w
  | (d, l) :: rest, w =>
    let tw := w.map fun c => if c = d then l else c
    if vocab.contains (pyLowerStr tw) then tw else tryFixes vocab rest w

/-- The per-word restoration of lines 198–212. -/
def restoreWord (vocab : List (List Char)) (w : List Char) : List Char :=
  if w.any isAsciiDigit && 2 < w.length && !pyIsDigitStr w then
    tryFixes vocab fixes w
  else w

/-- `' '.join ws`. -/
def joinSpace (ws : List (List Char)) : List Char := (ws.intersperse [' ']).flatten

/-- `restore_deformed_text` (lines 172–220). -/
def restore_deformed_text (text : String) (context : List String) : String :=
  if text.data.length < 2 then text
  else if buildContextWords context ≠ [] then
    ⟨joinSpace ((pySplit text.data).map
        (restoreWord (buildContextWords context)))⟩
  else text

/-! ## `group_blocks_by_layout` (source lines 384–408) -/

/-- The same-group test of lines 397–398: same page and `abs(curr.y0 -
prev.y1) < 25`. -/
def stayTogether (prev curr : TextBlock) : Bool :=
  curr.page_num == prev.page_num && |curr.y0 - prev.y1| < 25

/-- The grouping loop: `prev` is the previous block of the traversal, `cur`
the group under construction. -/
def groupAux (prev : TextBlock) (cur : List TextBlock) :
    List TextBlock → List (List TextBlock)
  | [] => [cur]
  | b :: rest =>
    if stayTogether prev b then groupAux b (cur ++ [b]) rest
    else cur :: groupAux b [b] rest

/-- `group_blocks_by_layout` (lines 384–408). -/
def group_blocks_by_layout : List TextBlock → List (List TextBlock)
  | [] => []
  | b :: rest => groupAux b [b] rest

/-! ## `convert_to_markdown` (source lines 410–506) -/

/-- `re.match(r'\*\*.*\*\*', t)`, continuation: scan for `**` not preceded by
a newline (`.` does not match `\n`). -/
def starStarBeforeNL : List Char → Bool
  | '*' :: '*' :: _ => true
  | '\n' :: _ => false
  | _ :: rest => starStarBeforeNL rest
  | [] => false

/-- `re.match(r'\*\*.*\*\*', t)` (line 489). -/
def matchesDoubleBold (t : List Char) : Bool :=
  match t with
  | '*' :: '*' :: rest => starStarBeforeNL rest
  | _ => false

/-- Scan for a `*` not preceded by a newline. -/
def starBeforeNL : List Char → Bool
  | '*' :: _ => true
  | '\n' :: _ => false
  | _ :: rest => starBeforeNL rest
  | [] => false

/-- `re.match(r'\*.*\*', t)` (line 493). -/
def matchesItalicPat (t : List Char) : Bool :=
  match t with
  | '*' :: rest => starBeforeNL rest
  | _ => false

/-- Lines 487–490: wrap in `**…**` when bold, unless already double-bold. -/
def boldWrap (is_bold : Bool) (t : String) : String :=
  if is_bold && !matchesDoubleBold t.data then "**" ++ t ++ "**" else t

/-- Lines 491–494: wrap in `*…*` when italic, unless already star-matched or
containing `**`. -/
def italWrap (is_italic : Bool) (t : String) : String :=
  if is_italic && !matchesItalicPat t.data &&
     !(isInfixOfCL ('*' :: '*' :: []) t.data)
  then "*" ++ t ++ "*" else t

/-- The inline-emphasis wrapping of lines 486–494: bold wrap, then italic
wrap applied to the result. -/
def inlineFormat (is_bold is_italic : Bool) (text : String) : String :=
  italWrap is_italic (boldWrap is_bold text)

/-- The heading-level thresholds of lines 452–459. -/
def headingLevel (fs : ℚ) : Nat :=
  if 20 < fs then 1 else if 16 < fs then 2 else if 14 < fs then 3 else 4

/-- The page-break marker of line 445. -/
def pageBreakMarker (n : Nat) : String :=
  "\n\n<!-- Trang " ++ toString n ++ " -->\n\n"

/-- `re.match(r'^\d+[\.\)]', t)` (line 466). -/
def startsNumMarker (t : List Char) : Bool :=
  decide (t.takeWhile isAsciiDigit ≠ []) &&
  (match t.dropWhile isAsciiDigit with
   | c :: _ => c = '.' || c = ')'
   | [] => false)

/-- `re.match(r'^[-*•]', t)` (line 470). -/
def startsBullet (t : List Char) : Bool :=
  match t with
  | c :: _ => c = '-' || c = '*' || c = '•'
  | [] => false

/-- One iteration of the inner block loop of lines 436–504.  The state is
`(prev_block_type, prev_page, accumulated markdown)`. -/
def renderBlockStep (context : List String)
    (st : Option String × Nat × String) (b : TextBlock) :
    Option String × Nat × String :=
  let (prevType, prevPage, acc) := st
  let text := restore_deformed_text b.text context
  if pyStrip text.data = [] then (prevType, prevPage, acc)
  else
    let acc := if prevPage < b.page_num && 0 < prevPage
               then acc ++ pageBreakMarker b.page_num else acc
    let prevPage := b.page_num
    if b.block_type = "heading" then
      (some "heading", prevPage,
       acc ++ ⟨List.replicate (headingLevel b.font_size) '#'⟩ ++ " " ++ text ++ "\n\n")
    else if b.block_type = "list" then
      let line := if startsNumMarker text.data then text ++ "\n"
                  else if !startsBullet text.data then "- " ++ text ++ "\n"
                  else text ++ "\n"
      (some "list", prevPage, acc ++ line)
    else if b.block_type = "code" then
      let line := if !(('`' :: '`' :: '`' :: []).isPrefixOf text.data)
                  then "```\n" ++ text ++ "\n```\n\n" else text ++ "\n\n"
      (some "code", prevPage, acc ++ line)
    else
      let ft := inlineFormat b.is_bold b.is_italic text
      let line := if prevType = some "heading" then ft ++ "\n\n"
                  else if prevType = some "list" then "\n" ++ ft ++ "\n\n"
                  else ft ++ "\n\n"
      (some "paragraph", prevPage, acc ++ line)

/-- Python `l[-3:]`. -/
def lastN (n : Nat) (l : List α) : List α := l.drop (l.length - n)

/-- The restoration context of group `i` (lines 422–434): the group's own
texts, the last 3 texts of the previous group, the first 3 of the next. -/
def buildGroupContext (groups : List (List TextBlock)) (i : Nat) : List String :=
  ((groups.getD i []).map (·.text))
  ++ (if 0 < i then (lastN 3 (groups.getD (i - 1) [])).map (·.text) else [])
  ++ (if i < groups.length - 1 then ((groups.getD (i + 1) []).take 3).map (·.text)
      else [])

/-- `convert_to_markdown` (lines 410–506). -/
def convert_to_markdown (blocks : List TextBlock) : String :=
  if blocks = [] then ""
  else
    let groups := group_blocks_by_layout blocks
    ((List.range groups.length).foldl
      (fun st i => (groups.getD i []).foldl
        (renderBlockStep (buildGroupContext groups i)) st)
      ((none : Option String), 0, "")).2.2

/-! ## `extract_text_blocks` (source lines 301–382) -/

/-- A text span as delivered by the page source (`page.get_text("dict")`). -/
structure Span where
  text : String
  size : ℚ
  font : String
  flags : Nat
deriving DecidableEq, Repr

/-- A line of spans. -/
structure SrcLine where
  spans : List Span
deriving DecidableEq, Repr

/-- A raw source block; image blocks carry no `lines` key (`none`). -/
structure SrcBlock where
  lines : Option (List SrcLine)
  x0 : ℚ
  y0 : ℚ
  x1 : ℚ
  y1 : ℚ
deriving DecidableEq, Repr

/-- The running state of the span merge loop of lines 322–341. -/
structure MergedBlock where
  block_text : List Char
  is_bold : Bool
  is_italic : Bool
  font_size : ℚ
  font_name : String
deriving DecidableEq, Repr

/-- One span of the merge loop of lines 329–341: skip whitespace-only spans,
append `text + " "`, and take the font info from the first text-bearing span
(first-wins, keyed on `font_name` still being empty). -/
def mergeSpanStep (st : MergedBlock) (sp : Span) : MergedBlock :=
  if pyStrip sp.text.data ≠ [] then
    if st.font_name = "" then
      { block_text := st.block_text ++ sp.text.data ++ [' '],
        is_bold := decide (sp.flags.land 16 ≠ 0),
        is_italic := decide (sp.flags.land 2 ≠ 0),
        font_size := sp.size, font_name := sp.font }
    else { st with block_text := st.block_text ++ sp.text.data ++ [' '] }
  else st

/-- The raw text and dominant style of a source block. -/
def mergeBlock (lines : List SrcLine) : MergedBlock :=
  lines.foldl (fun st line => line.spans.foldl mergeSpanStep st)
    { block_text := [], is_bold := false, is_italic := false,
      font_size := 0, font_name := "" }

/-- Block creation (lines 343–358): build a `TextBlock` when the merged text
is not whitespace-only; font size falls back to 12; `page_num` is 1-based. -/
def mkTextBlock (page_num : Nat) (sb : SrcBlock) : Option TextBlock :=
  match sb.lines with
  | none => none
  | some lines =>
    if pyStrip (mergeBlock lines).block_text ≠ [] then
      some { text := ⟨normalizeList (mergeBlock lines).block_text⟩,
             x0 := sb.x0, y0 := sb.y0, x1 := sb.x1, y1 := sb.y1,
             font_size := if 0 < (mergeBlock lines).font_size
                          then (mergeBlock lines).font_size else 12,
             font_name := (mergeBlock lines).font_name,
             is_bold := (mergeBlock lines).is_bold,
             is_italic := (mergeBlock lines).is_italic,
             block_type := "paragraph", page_num := page_num + 1 }
    else none

/-- The page loop of lines 309–372: per page, create the page's blocks, then
assign each its type from the page context (the classification pass of lines
361–362 reads only font sizes from `page_blocks`, so the in-place mutation of
the source is order-independent and modelled as a map). -/
def extractAux (acc : List TextBlock) (page_num : Nat) :
    List (List SrcBlock) → List TextBlock
  | [] => acc
  | page :: rest =>
    let page_blocks := page.filterMap (mkTextBlock page_num)
    let classified := page_blocks.map fun b =>
      { b with block_type := detect_block_type b (acc ++ page_blocks) page_blocks }
    extractAux (acc ++ classified) (page_num + 1) rest

/-- `extract_text_blocks` (lines 301–382) over a document given as a list of
pages of raw source blocks. -/
def extract_text_blocks (doc : List (List SrcBlock)) : List TextBlock :=
  extractAux [] 0 doc

/-! ## `convert` (source lines 542–641)

Only the validation-and-pipeline skeleton matters to the claims: the
filesystem is abstracted by an existence predicate and the opened document by
its page list.  The final post-processing pass and the output-file writing of
the success path are not modelled; no claim concerns them. -/

/-- The failure taxonomy of `convert`: `FileNotFoundError` (line 554) and the
three `ValueError`s of lines 565, 571 and 579. -/
inductive ConvertError
  | NotFound
  | InvalidFormat
  | EmptyDocument
  | NoText
deriving DecidableEq, Repr

/-- `convert` (lines 542–641): existence check, extension check
(`pdf_path.lower().endswith('.pdf')`), empty-document check, extraction,
no-text check, rendering. -/
def convert (pathExists : String → Bool) (doc : List (List SrcBlock))
    (pdf_path : String) : Except ConvertError String :=
  if !pathExists pdf_path then .error .NotFound
  else if !(".pdf".data.isSuffixOf (pyLowerStr pdf_path.data)) then
    .error .InvalidFormat
  else if doc.length = 0 then .error .EmptyDocument
  else
    let blocks := extract_text_blocks doc
    if blocks = [] then .error .NoText
    else .ok (convert_to_markdown blocks)

/-! ## Concrete sample blocks used by witnesses and counterexamples -/

/-- A block with the given text, font size, boldness, vertical extent and
page number (the other fields are irrelevant to every property proved
here and are fixed). -/
def sampleBlock (t : String) (fs : ℚ) (bold : Bool) (y0 y1 : ℚ) (pg : Nat) :
    TextBlock :=
  { text := t, x0 := 0, y0 := y0, x1 := 0, y1 := y1, font_size := fs,
    font_name := "F1", is_bold := bold, is_italic := false,
    block_type := "paragraph", page_num := pg }

/-! ## Classifier lemmas -/

/-- If the stripped text is non-empty and matches one of the heading
patterns, the classifier answers `heading` whatever the font data says. -/
theorem detect_heading_of_pattern (block : TextBlock)
    (blocks page_blocks : List TextBlock)
    (htext : pyStrip block.text.data ≠ [])
    (hpat : matchesHeadingPattern (pyStrip block.text.data) = true) :
    detect_block_type block blocks page_blocks = "heading" := by
  unfold detect_block_type
  rw [if_neg htext, hpat]
  simp

/-- C1 (amended, strict part): a block with non-empty stripped text whose
font size strictly exceeds `1.3×` the page mean is classified `heading`,
regardless of its other fields. -/
theorem C1_amended_heading (block : TextBlock)
    (blocks page_blocks : List TextBlock)
    (hvary : ∃ b₁ ∈ page_blocks, ∃ b₂ ∈ page_blocks, b₁.font_size ≠ b₂.font_size)
    (htext : pyStrip block.text.data ≠ [])
    (hsize : pageMeanFontSize page_blocks * (13/10) < block.font_size) :
    detect_block_type block blocks page_blocks = "heading" := by
  unfold detect_block_type
  rw [if_neg htext]
  simp [hsize]

def C1blockA : TextBlock := sampleBlock "hello world 123" 13 false 0 0 1

def C1blockB : TextBlock := sampleBlock "x1" 7 false 0 0 1

theorem C1_mean_eval : pageMeanFontSize [C1blockA, C1blockB] = 10 := by
  norm_num [pageMeanFontSize, C1blockA, C1blockB, sampleBlock]

/-- C1 (counterexample): on a page with two blocks of differing font sizes
(13 and 7, mean 10), the block of size 13 has font size `≥ 1.3×` the mean
(`13 = 1.3 × 10`) yet is classified `paragraph`, not `heading`: the code, at
line 126, requires a strictly greater font size. -/
theorem C1_counterexample :
    C1blockA.font_size ≠ C1blockB.font_size ∧
    pageMeanFontSize [C1blockA, C1blockB] * (13/10) ≤ C1blockA.font_size ∧
    detect_block_type C1blockA [] [C1blockA, C1blockB] = "paragraph" := by
  refine ⟨by decide, by rw [C1_mean_eval]; norm_num [C1blockA, sampleBlock], ?_⟩
  unfold detect_block_type
  rw [C1_mean_eval]
  have h : ¬((10 : ℚ) * (13/10) < C1blockA.font_size) := by
    norm_num [C1blockA, sampleBlock]
  simp only [h, decide_False, Bool.false_or]
  decide

/-- C1 witness for the amended theorem: a block of font size 20 and text
"Totals for 2024" on a page of mean size 15 is classified `heading`. -/
theorem C1_amended_witness :
    detect_block_type (sampleBlock "Totals for 2024, part 1!" 20 false 0 0 1) []
      [sampleBlock "Totals for 2024, part 1!" 20 false 0 0 1,
       sampleBlock "x1" 10 false 0 0 1] = "heading" :=
  C1_amended_heading _ _ _
    ⟨_, List.mem_cons_self _ _, _, List.mem_cons_of_mem _ (List.mem_cons_self _ _),
     by decide⟩
    (by decide)
    (by norm_num [pageMeanFontSize, sampleBlock])

/-- C2: the code classifies the plain numbered-list text `"1. foo"`
(non-bold, font size equal to the page mean) as `heading`, not `list`:
`re.IGNORECASE` — needed by the chapter-keyword pattern — also applies to the
numbered-heading pattern `^\d+\.\s+[A-Z…]` of line 136, so its
uppercase-letter class matches the lowercase `f`.  The text does match the
list patterns, but the heading branch fires first. -/
theorem C2_eval :
    startsListPattern (pyStrip ("1. foo").data) = true ∧
    (sampleBlock "1. foo" 10 false 0 0 1).is_bold = false ∧
    detect_block_type (sampleBlock "1. foo" 10 false 0 0 1) []
      [sampleBlock "1. foo" 10 false 0 0 1, sampleBlock "x y" 10 false 0 0 1]
      = "heading" := by
  refine ⟨by decide, by decide, ?_⟩
  exact detect_heading_of_pattern _ _ _ (by decide) (by decide)

/-- C3: the code classifies the all-lowercase text `"hello world"`
(non-bold, font size equal to the page mean, no list pattern, no code
indicator) as `heading`, not `paragraph`: `re.IGNORECASE` makes the
all-uppercase pattern `^[A-Z…\s]{1,100}$` of line 137 (comment: "Tất cả chữ
hoa" — all uppercase) match lowercase letters as well. -/
theorem C3_eval :
    startsListPattern (pyStrip ("hello world").data) = false ∧
    hasCodeIndicator (pyStrip ("hello world").data) = false ∧
    (sampleBlock "hello world" 10 false 0 0 1).is_bold = false ∧
    detect_block_type (sampleBlock "hello world" 10 false 0 0 1) []
      [sampleBlock "hello world" 10 false 0 0 1,
       sampleBlock "x y 1" 10 false 0 0 1] = "heading" := by
  refine ⟨by decide, by decide, by decide, ?_⟩
  exact detect_heading_of_pattern _ _ _ (by decide) (by decide)

/-! ## C6: idempotence of `normalize_text` -/

/-- C6 (counterexample): `normalize_text` is not idempotent.  On `"…B"` the
first pass rewrites the ellipsis to `"..."`, producing `"...B"`; the second
pass then fires the sentence-punctuation rule on `".B"` and yields `"... B"`. -/
theorem C6_counterexample :
    normalize_text (normalize_text "…B") ≠ normalize_text "…B" := by decide

/-! ## C7: restoration guards -/

theorem tryFixes_contains (vocab : List (List Char)) :
    ∀ (fl : List (Char × Char)) (w : List Char),
      tryFixes vocab fl w ≠ w →
      vocab.contains (pyLowerStr (tryFixes vocab fl w)) = true := by
  intro fl
  induction fl with
  | nil => intro w hw; exact absurd rfl hw
  | cons p rest ih =>
    intro w hw
    obtain ⟨d, l⟩ := p
    simp only [tryFixes] at hw ⊢
    by_cases hc :
        vocab.contains (pyLowerStr (w.map fun c => if c = d then l else c)) = true
    · rw [if_pos hc]
      exact hc
    · rw [if_neg hc] at hw ⊢
      exact ih w hw

/-- C7: with an empty context list the text is returned unchanged; more
generally an empty vocabulary returns the text unchanged; and a word is ever
replaced only by a substitution whose lowercased result is a member of the
vocabulary. -/
theorem C7_restore_guards :
    (∀ t : String, restore_deformed_text t [] = t) ∧
    (∀ (t : String) (ctx : List String), buildContextWords ctx = [] →
       restore_deformed_text t ctx = t) ∧
    (∀ (vocab : List (List Char)) (w : List Char),
       restoreWord vocab w ≠ w →
       vocab.contains (pyLowerStr (restoreWord vocab w)) = true) := by
  refine ⟨?_, ?_, ?_⟩
  · intro t
    simp [restore_deformed_text, buildContextWords]
  · intro t ctx h
    simp [restore_deformed_text, h]
  · intro vocab w hw
    unfold restoreWord at hw ⊢
    by_cases hcond :
        (w.any isAsciiDigit && decide (2 < w.length) && !pyIsDigitStr w) = true
    · rw [if_pos hcond] at hw ⊢
      exact tryFixes_contains vocab fixes w hw
    · rw [if_neg hcond] at hw
      exact absurd rfl hw

/-- C7 witness: a context whose only text contains no letters gives an empty
vocabulary, so the digit-bearing text `"a0c"` is returned unchanged. -/
theorem C7_witness :
    restore_deformed_text "a0c" ["!!! 123"] = "a0c" :=
  C7_restore_guards.2.1 "a0c" ["!!! 123"] (by decide)

/-! ## C8: `convert` error ordering -/

/-- C8: a missing source fails with `NotFound`; an existing source whose
lowercased path does not end in `".pdf"` fails with `InvalidFormat` whatever
the document contains — in particular before any page is extracted (the
result does not depend on `doc`). -/
theorem C8_convert_errors (pathExists : String → Bool)
    (doc : List (List SrcBlock)) (p : String) :
    (pathExists p = false → convert pathExists doc p = .error .NotFound) ∧
    (pathExists p = true →
       (".pdf".data.isSuffixOf (pyLowerStr p.data)) = false →
       convert pathExists doc p = .error .InvalidFormat) := by
  constructor
  · intro h
    simp [convert, h]
  · intro h1 h2
    simp [convert, h1, h2]

/-- C8 witness: an existing `.txt` path fails with `InvalidFormat` even on a
document with extractable text, and a missing `.pdf` path fails with
`NotFound`. -/
theorem C8_witness :
    convert (fun _ => true)
      [[{ lines := some [{ spans := [{ text := "hello", size := 12,
                                       font := "F1", flags := 0 }] }],
          x0 := 0, y0 := 0, x1 := 0, y1 := 0 }]] "Report.TXT"
      = .error .InvalidFormat ∧
    convert (fun _ => false) [] "a.pdf" = .error .NotFound :=
  ⟨(C8_convert_errors (fun _ => true) _ "Report.TXT").2 rfl (by decide),
   (C8_convert_errors (fun _ => false) [] "a.pdf").1 rfl⟩

/-! ## C10: whitespace behaviour of restoration -/

/-- C10 (counterexample): with the non-empty vocabulary built from
`["hello"]`, the claim predicts that the single-space text `" "` is split and
re-joined — which would give `""` — but the guard of line 174 (`len(text) <
2`) returns it unchanged, whitespace intact. -/
theorem C10_counterexample :
    buildContextWords ["hello"] ≠ [] ∧
    joinSpace ((pySplit (" ").data).map
      (restoreWord (buildContextWords ["hello"]))) = [] ∧
    restore_deformed_text " " ["hello"] = " " := by
  refine ⟨by decide, by decide, ?_⟩
  simp [restore_deformed_text]

theorem pySplitAux_words :
    ∀ (s cur : List Char), cur.all (fun c => !pyIsSpace c) = true →
      ∀ w ∈ pySplitAux cur s, w ≠ [] ∧ w.all (fun c => !pyIsSpace c) = true := by
  intro s
  induction s with
  | nil =>
    intro cur hcur w hw
    by_cases h : cur = []
    · simp [pySplitAux, h] at hw
    · simp only [pySplitAux, if_neg h, List.mem_singleton] at hw
      subst hw
      refine ⟨by simpa using h, by simpa using hcur⟩
  | cons c rest ih =>
    intro cur hcur w hw
    by_cases hsp : pyIsSpace c = true
    · by_cases h : cur = []
      · rw [pySplitAux, if_pos hsp, if_pos h] at hw
        exact ih [] rfl w hw
      · rw [pySplitAux, if_pos hsp, if_neg h] at hw
        rcases List.mem_cons.mp hw with h' | h'
        · subst h'
          refine ⟨by simpa using h, by simpa using hcur⟩
        · exact ih [] rfl w h'
    · rw [pySplitAux, if_neg hsp] at hw
      refine ih (c :: cur) ?_ w hw
      simp only [List.all_cons, hcur, Bool.and_true]
      simpa using hsp

theorem tryFixes_shape (vocab : List (List Char)) :
    ∀ (fl : List (Char × Char)) (w : List Char),
      tryFixes vocab fl w = w ∨
      ∃ p ∈ fl, tryFixes vocab fl w = w.map fun c => if c = p.1 then p.2 else c := by
  intro fl
  induction fl with
  | nil => intro w; exact Or.inl rfl
  | cons p rest ih =>
    intro w
    obtain ⟨d, l⟩ := p
    rw [tryFixes]
    split
    · exact Or.inr ⟨(d, l), List.mem_cons_self _ _, rfl⟩
    · rcases ih w with h | ⟨q, hq, h⟩
      · exact Or.inl h
      · exact Or.inr ⟨q, List.mem_cons_of_mem _ hq, h⟩

theorem restoreWord_words (vocab : List (List Char)) (w : List Char)
    (hne : w ≠ []) (hns : w.all (fun c => !pyIsSpace c) = true) :
    restoreWord vocab w ≠ [] ∧
    (restoreWord vocab w).all (fun c => !pyIsSpace c) = true := by
  unfold restoreWord
  split
  · rcases tryFixes_shape vocab fixes w with h | ⟨p, hp, h⟩
    · rw [h]; exact ⟨hne, hns⟩
    · rw [h]
      have hl : pyIsSpace p.2 = false := by
        fin_cases hp <;> decide
      constructor
      · simpa using hne
      · rw [List.all_map]
        refine List.all_eq_true.mpr ?_
        intro c hc
        have := List.all_eq_true.mp hns c hc
        by_cases hcd : c = p.1 <;> simp [Function.comp, hcd, hl, this]
  · exact ⟨hne, hns⟩

/-- C10 (amended): when the vocabulary is non-empty **and the text has at
least two characters**, restoration splits the text on whitespace and
re-joins the (possibly repaired) words with single spaces; every resulting
word is non-empty and whitespace-free, so interior whitespace runs become
single spaces and boundary whitespace disappears even when no substitution
is accepted. -/
theorem C10_amended (t : String) (ctx : List String)
    (hlen : 2 ≤ t.data.length) (hvocab : buildContextWords ctx ≠ []) :
    restore_deformed_text t ctx =
      ⟨joinSpace ((pySplit t.data).map (restoreWord (buildContextWords ctx)))⟩ ∧
    ∀ w ∈ (pySplit t.data).map (restoreWord (buildContextWords ctx)),
      w ≠ [] ∧ w.all (fun c => !pyIsSpace c) = true := by
  constructor
  · unfold restore_deformed_text
    rw [if_neg (by omega), if_pos hvocab]
  · intro w hw
    rcases List.mem_map.mp hw with ⟨w₀, hw₀, rfl⟩
    have h := pySplitAux_words t.data [] rfl w₀ hw₀
    exact restoreWord_words _ _ h.1 h.2

/-- C10 witness: interior runs collapse and boundary whitespace vanishes on a
concrete text. -/
theorem C10_witness :
    restore_deformed_text "  a  b\nc " ["hello"] = "a b c" := by
  rw [(C10_amended "  a  b\nc " ["hello"] (by decide) (by decide)).1]
  decide

/-! ## C4: layout grouping -/

theorem groupAux_spec (rest : List TextBlock) :
    ∀ (prev : TextBlock) (cur : List TextBlock),
      cur ≠ [] → cur.getLast? = some prev →
      cur.Chain' (fun a b => stayTogether a b = true) →
      (groupAux prev cur rest).flatten = cur ++ rest ∧
      (∀ g ∈ groupAux prev cur rest, g ≠ []) ∧
      (∀ g ∈ groupAux prev cur rest,
         g.Chain' (fun a b => stayTogether a b = true)) ∧
      (groupAux prev cur rest).Chain'
        (fun g₁ g₂ => ∀ a ∈ g₁.getLast?, ∀ b ∈ g₂.head?,
           stayTogether a b = false) ∧
      (groupAux prev cur rest).head?.map List.head? = some cur.head? := by
  induction rest with
  | nil =>
    intro prev cur hne hlast hchain
    refine ⟨by simp [groupAux], ?_, ?_, ?_, by simp [groupAux]⟩
    · intro g hg
      rw [groupAux, List.mem_singleton] at hg
      subst hg; exact hne
    · intro g hg
      rw [groupAux, List.mem_singleton] at hg
      subst hg; exact hchain
    · rw [groupAux]
      exact List.chain'_singleton cur
  | cons b rest ih =>
    intro prev cur hne hlast hchain
    rw [groupAux]
    by_cases hstay : stayTogether prev b = true
    · rw [if_pos hstay]
      have hcur' : cur ++ [b] ≠ [] := by simp
      have hlast' : (cur ++ [b]).getLast? = some b := by
        simp [List.getLast?_concat]
      have hchain' : (cur ++ [b]).Chain' (fun a b => stayTogether a b = true) := by
        rw [List.chain'_append]
        refine ⟨hchain, List.chain'_singleton b, ?_⟩
        intro x hx y hy
        rw [hlast] at hx
        rw [Option.mem_some_iff] at hx
        simp only [List.head?_cons, Option.mem_some_iff] at hy
        subst hx; subst hy
        exact hstay
      obtain ⟨h1, h2, h3, h4, h5⟩ := ih b (cur ++ [b]) hcur' hlast' hchain'
      refine ⟨by rw [h1]; simp, h2, h3, h4, ?_⟩
      rw [h5]
      cases cur with
      | nil => exact absurd rfl hne
      | cons c cs => simp
    · rw [if_neg hstay]
      obtain ⟨h1, h2, h3, h4, h5⟩ :=
        ih b [b] (by simp) (by simp) (List.chain'_singleton b)
      refine ⟨by simp [h1], ?_, ?_, ?_, by simp⟩
      · intro g hg
        rcases List.mem_cons.mp hg with h | h
        · subst h; exact hne
        · exact h2 g h
      · intro g hg
        rcases List.mem_cons.mp hg with h | h
        · subst h; exact hchain
        · exact h3 g h
      · rw [List.chain'_cons']
        refine ⟨?_, h4⟩
        intro g hg a ha c hc
        cases hgs : groupAux b [b] rest with
        | nil => rw [hgs] at hg; simp at hg
        | cons g₀ gs =>
          rw [hgs] at hg h5
          simp only [List.head?_cons, Option.mem_some_iff] at hg
          subst hg
          simp only [List.head?_cons, Option.map_some', Option.some_inj] at h5
          rw [hlast] at ha
          rw [Option.mem_some_iff] at ha
          subst ha
          rw [h5] at hc
          simp only [List.head?_cons, Option.mem_some_iff] at hc
          subst hc
          simpa using hstay

/-- C4: the grouping function splits the block list exactly at the boundaries
given by the same-page/vertical-gap test: the groups concatenate back to the
input; every group is non-empty; inside a group every pair of consecutive
blocks is on the same page with `|curr.y0 − prev.y1| < 25`; and at every
boundary between consecutive groups the last block of the one and the first
block of the next fail that test (different page, or gap `≥ 25`). -/
theorem C4_grouping (bs : List TextBlock) :
    (group_blocks_by_layout bs).flatten = bs ∧
    (∀ g ∈ group_blocks_by_layout bs, g ≠ []) ∧
    (∀ g ∈ group_blocks_by_layout bs,
       g.Chain' (fun a b => stayTogether a b = true)) ∧
    (group_blocks_by_layout bs).Chain'
      (fun g₁ g₂ => ∀ a ∈ g₁.getLast?, ∀ b ∈ g₂.head?,
         stayTogether a b = false) := by
  cases bs with
  | nil => simp [group_blocks_by_layout]
  | cons b rest =>
    rw [group_blocks_by_layout]
    obtain ⟨h1, h2, h3, h4, _⟩ :=
      groupAux_spec rest b [b] (by simp) (by simp) (List.chain'_singleton b)
    exact ⟨h1, h2, h3, h4⟩

/-- C4 witness: a concrete three-block list (two pages) splits with the
groups concatenating back to the input list. -/
theorem C4_witness :
    (group_blocks_by_layout
      [sampleBlock "a" 10 false 0 10 1, sampleBlock "b" 10 false 20 30 1,
       sampleBlock "c" 10 false 0 10 2]).flatten =
      [sampleBlock "a" 10 false 0 10 1, sampleBlock "b" 10 false 20 30 1,
       sampleBlock "c" 10 false 0 10 2] :=
  (C4_grouping _).1

/-! ## C9 support: character inventories of restoration and inline formatting -/

theorem pyStrip_eq_nil_iff (s : List Char) :
    pyStrip s = [] ↔ s.all pyIsSpace = true := by
  unfold pyStrip
  rw [List.reverse_eq_nil_iff, List.dropWhile_eq_nil_iff, List.all_eq_true]
  constructor
  · intro h c hc
    have hsplit : s.takeWhile pyIsSpace ++ s.dropWhile pyIsSpace = s :=
      List.takeWhile_append_dropWhile pyIsSpace s
    rw [← hsplit] at hc
    rcases List.mem_append.mp hc with h' | h'
    · exact List.mem_takeWhile_imp h'
    · exact h c (by simpa using h')
  · intro h c hc
    rw [List.mem_reverse] at hc
    exact h c ((List.dropWhile_suffix pyIsSpace).subset hc)

theorem pySplitAux_ne_nil :
    ∀ (s cur : List Char),
      s.any (fun c => !pyIsSpace c) = true ∨ cur ≠ [] →
      pySplitAux cur s ≠ [] := by
  intro s
  induction s with
  | nil =>
    intro cur h
    rcases h with h | h
    · simp at h
    · simp [pySplitAux, h]
  | cons c rest ih =>
    intro cur h
    rw [pySplitAux]
    by_cases hsp : pyIsSpace c = true
    · rw [if_pos hsp]
      by_cases hcur : cur = []
      · rw [if_pos hcur]
        refine ih [] (Or.inl ?_)
        rcases h with h | h
        · simpa [hsp] using h
        · exact absurd hcur h
      · rw [if_neg hcur]
        simp
    · rw [if_neg hsp]
      exact ih (c :: cur) (Or.inr (by simp))

theorem pySplitAux_mem :
    ∀ (s cur : List Char) (w : List Char), w ∈ pySplitAux cur s →
      ∀ c ∈ w, c ∈ cur ∨ c ∈ s := by
  intro s
  induction s with
  | nil =>
    intro cur w hw c hc
    by_cases h : cur = []
    · simp [pySplitAux, h] at hw
    · rw [pySplitAux, if_neg h, List.mem_singleton] at hw
      subst hw
      exact Or.inl (by simpa using hc)
  | cons a rest ih =>
    intro cur w hw c hc
    rw [pySplitAux] at hw
    by_cases hsp : pyIsSpace a = true
    · rw [if_pos hsp] at hw
      by_cases h : cur = []
      · rw [if_pos h] at hw
        rcases ih [] w hw c hc with h' | h'
        · simp at h'
        · exact Or.inr (List.mem_cons_of_mem a h')
      · rw [if_neg h] at hw
        rcases List.mem_cons.mp hw with h' | h'
        · subst h'
          exact Or.inl (by simpa using hc)
        · rcases ih [] w h' c hc with h'' | h''
          · simp at h''
          · exact Or.inr (List.mem_cons_of_mem a h'')
    · rw [if_neg hsp] at hw
      rcases ih (a :: cur) w hw c hc with h' | h'
      · rcases List.mem_cons.mp h' with h'' | h''
        · rw [h'']
          exact Or.inr (List.mem_cons_self a rest)
        · exact Or.inl h''
      · exact Or.inr (List.mem_cons_of_mem a h')

theorem joinSpace_cons_cons (w₁ w₂ : List Char) (t : List (List Char)) :
    joinSpace (w₁ :: w₂ :: t) = w₁ ++ ' ' :: joinSpace (w₂ :: t) := by
  simp [joinSpace, List.intersperse_cons_cons]

theorem joinSpace_single (w : List Char) : joinSpace [w] = w := by
  simp [joinSpace]

theorem joinSpace_first (w : List Char) (rest : List (List Char)) :
    ∃ z, joinSpace (w :: rest) = w ++ z := by
  cases rest with
  | nil => exact ⟨[], by simp [joinSpace_single]⟩
  | cons w₂ t => exact ⟨' ' :: joinSpace (w₂ :: t), joinSpace_cons_cons w w₂ t⟩

theorem joinSpace_mem :
    ∀ (ws : List (List Char)) (c : Char), c ∈ joinSpace ws →
      c = ' ' ∨ ∃ w ∈ ws, c ∈ w := by
  intro ws
  induction ws with
  | nil => intro c hc; simp [joinSpace] at hc
  | cons w rest ih =>
    intro c hc
    cases rest with
    | nil =>
      rw [joinSpace_single] at hc
      exact Or.inr ⟨w, List.mem_singleton_self w, hc⟩
    | cons w₂ t =>
      rw [joinSpace_cons_cons] at hc
      rcases List.mem_append.mp hc with h | h
      · exact Or.inr ⟨w, List.mem_cons_self _ _, h⟩
      · rcases List.mem_cons.mp h with h' | h'
        · exact Or.inl h'
        · rcases ih c h' with h'' | ⟨w', hw', hcw'⟩
          · exact Or.inl h''
          · exact Or.inr ⟨w', List.mem_cons_of_mem w hw', hcw'⟩

theorem restoreWord_mem (vocab : List (List Char)) (w : List Char) (c : Char)
    (hc : c ∈ restoreWord vocab w) :
    c ∈ w ∨ c = 'O' ∨ c = 'I' ∨ c = 'S' ∨ c = 'B' := by
  unfold restoreWord at hc
  split at hc
  · rcases tryFixes_shape vocab fixes w with h | ⟨p, hp, h⟩
    · rw [h] at hc; exact Or.inl hc
    · rw [h] at hc
      rcases List.mem_map.mp hc with ⟨c₀, hc₀, hfc⟩
      by_cases hcd : c₀ = p.1
      · rw [if_pos hcd] at hfc
        subst hfc
        right
        fin_cases hp <;> simp
      · rw [if_neg hcd] at hfc
        subst hfc
        exact Or.inl hc₀
  · exact Or.inl hc

/-- Restoration introduces no character besides a space and the four fix
letters: every character of the output is from the input or that set. -/
theorem restore_mem (t : String) (ctx : List String) (c : Char)
    (hc : c ∈ (restore_deformed_text t ctx).data) :
    c ∈ t.data ∨ c = ' ' ∨ c = 'O' ∨ c = 'I' ∨ c = 'S' ∨ c = 'B' := by
  unfold restore_deformed_text at hc
  split at hc
  · exact Or.inl hc
  · split at hc
    · rcases joinSpace_mem _ c hc with h | ⟨w, hw, hcw⟩
      · exact Or.inr (Or.inl h)
      · rcases List.mem_map.mp hw with ⟨w₀, hw₀, rfl⟩
        rcases restoreWord_mem _ w₀ c hcw with h | h
        · rcases pySplitAux_mem t.data [] w₀ hw₀ c h with h' | h'
          · simp at h'
          · exact Or.inl h'
        · exact Or.inr (Or.inr h)
    · exact Or.inl hc

/-- Restoration of a text with visible content still has visible content. -/
theorem restore_strip_ne (t : String) (ctx : List String)
    (h : pyStrip t.data ≠ []) :
    pyStrip (restore_deformed_text t ctx).data ≠ [] := by
  unfold restore_deformed_text
  split
  · exact h
  · split
    · show pyStrip (joinSpace ((pySplit t.data).map
        (restoreWord (buildContextWords ctx)))) ≠ []
      have hany : t.data.any (fun c => !pyIsSpace c) = true := by
        by_contra hall
        refine h ((pyStrip_eq_nil_iff t.data).mpr ?_)
        rw [List.all_eq_true]
        intro c hcm
        by_contra hcsp
        exact hall (List.any_eq_true.mpr ⟨c, hcm, by simpa using hcsp⟩)
      have hsplitne := pySplitAux_ne_nil t.data [] (Or.inl hany)
      cases hsp : pySplit t.data with
      | nil => exact absurd hsp hsplitne
      | cons w₀ rest =>
        have hw₀ := pySplitAux_words t.data [] rfl w₀
          (by rw [← pySplit, hsp]; exact List.mem_cons_self _ _)
        have hw' := restoreWord_words (buildContextWords ctx) w₀ hw₀.1 hw₀.2
        intro hnil
        rw [pyStrip_eq_nil_iff] at hnil
        simp only [List.map_cons] at hnil
        obtain ⟨z, hz⟩ := joinSpace_first (restoreWord (buildContextWords ctx) w₀)
          (rest.map (restoreWord (buildContextWords ctx)))
        rw [hz] at hnil
        cases hv : restoreWord (buildContextWords ctx) w₀ with
        | nil => exact hw'.1 hv
        | cons v vs =>
          rw [hv] at hnil
          have hvsp : pyIsSpace v = true :=
            List.all_eq_true.mp hnil v (by simp)
          have hvn : (!pyIsSpace v) = true := by
            have hall := hw'.2
            rw [hv, List.all_cons] at hall
            exact ((Bool.and_eq_true _ _).mp hall).1
          rw [hvsp] at hvn
          simp at hvn
    · exact h

theorem boldWrap_shape (b : Bool) (t : String) :
    ∃ pre suf : List Char, (boldWrap b t).data = pre ++ t.data ++ suf ∧
      pre.all (· = '*') = true ∧ suf.all (· = '*') = true := by
  unfold boldWrap
  split
  · exact ⟨['*', '*'], ['*', '*'], by simp [String.data_append], rfl, rfl⟩
  · exact ⟨[], [], by simp, rfl, rfl⟩

theorem italWrap_shape (i : Bool) (t : String) :
    ∃ pre suf : List Char, (italWrap i t).data = pre ++ t.data ++ suf ∧
      pre.all (· = '*') = true ∧ suf.all (· = '*') = true := by
  unfold italWrap
  split
  · exact ⟨['*'], ['*'], by simp [String.data_append], rfl, rfl⟩
  · exact ⟨[], [], by simp, rfl, rfl⟩

/-- Inline emphasis wrapping only surrounds the text with asterisks. -/
theorem inlineFormat_shape (b i : Bool) (t : String) :
    ∃ pre suf : List Char,
      (inlineFormat b i t).data = pre ++ t.data ++ suf ∧
      pre.all (· = '*') = true ∧ suf.all (· = '*') = true := by
  obtain ⟨p₁, s₁, h₁, hp₁, hs₁⟩ := boldWrap_shape b t
  obtain ⟨p₂, s₂, h₂, hp₂, hs₂⟩ := italWrap_shape i (boldWrap b t)
  refine ⟨p₂ ++ p₁, s₁ ++ s₂, ?_, ?_, ?_⟩
  · rw [inlineFormat, h₂, h₁]
    simp
  · simp only [List.all_append, hp₂, hp₁, Bool.and_self]
  · simp only [List.all_append, hs₂, hs₁, Bool.and_self]

/-- Inline emphasis wrapping only adds asterisks. -/
theorem inlineFormat_mem (b i : Bool) (t : String) (c : Char)
    (hc : c ∈ (inlineFormat b i t).data) : c ∈ t.data ∨ c = '*' := by
  obtain ⟨pre, suf, h, hpre, hsuf⟩ := inlineFormat_shape b i t
  rw [h] at hc
  rcases List.mem_append.mp hc with h' | h'
  · rcases List.mem_append.mp h' with h'' | h''
    · exact Or.inr (of_decide_eq_true (List.all_eq_true.mp hpre c h''))
    · exact Or.inl h''
  · exact Or.inr (of_decide_eq_true (List.all_eq_true.mp hsuf c h'))

/-- The original text sits inside its inline-formatted form. -/
theorem inlineFormat_infix (b i : Bool) (t : String) :
    t.data <:+: (inlineFormat b i t).data := by
  obtain ⟨pre, suf, h, -, -⟩ := inlineFormat_shape b i t
  exact ⟨pre, suf, h.symm⟩

/-! ## C9: the page-break marker between two single-block pages -/

theorem restore_no_lt (t : String) (ctx : List String)
    (h : '<' ∉ t.data) : '<' ∉ (restore_deformed_text t ctx).data := by
  intro hmem
  rcases restore_mem t ctx '<' hmem with h' | h' | h' | h' | h' | h' <;>
    first
    | exact h h'
    | exact absurd h' (by decide)

theorem inline_no_lt (b i : Bool) (t : String)
    (h : '<' ∉ t.data) : '<' ∉ (inlineFormat b i t).data := by
  intro hmem
  rcases inlineFormat_mem b i t '<' hmem with h' | h'
  · exact h h'
  · exact absurd h' (by decide)

/-- C9: for a two-page document whose extraction yields exactly one
paragraph block on page 1 and one on page 2 (with visible, marker-free
text), the rendered Markdown contains exactly one page-break HTML comment —
`<!-- Trang 2 -->` — and it sits between the first paragraph's (restored)
text and the second paragraph's (restored) text. -/
theorem C9_pagebreak (b1 b2 : TextBlock)
    (hp1 : b1.page_num = 1) (hp2 : b2.page_num = 2)
    (ht1 : b1.block_type = "paragraph") (ht2 : b2.block_type = "paragraph")
    (hs1 : pyStrip b1.text.data ≠ []) (hs2 : pyStrip b2.text.data ≠ [])
    (hl1 : '<' ∉ b1.text.data) (hl2 : '<' ∉ b2.text.data) :
    ∃ s1 s2 : List Char,
      (convert_to_markdown [b1, b2]).data
        = s1 ++ ("\n\n<!-- Trang 2 -->\n\n" : String).data ++ s2 ∧
      (restore_deformed_text b1.text [b1.text, b2.text]).data <:+: s1 ∧
      (restore_deformed_text b2.text [b2.text, b1.text]).data <:+: s2 ∧
      (convert_to_markdown [b1, b2]).data.count '<' = 1 := by
  have hstay : stayTogether b1 b2 = false := by
    simp [stayTogether, hp1, hp2]
  have hgroups : group_blocks_by_layout [b1, b2] = [[b1], [b2]] := by
    simp [group_blocks_by_layout, groupAux, hstay]
  have hctx0 : buildGroupContext [[b1], [b2]] 0 = [b1.text, b2.text] := by
    simp [buildGroupContext, lastN]
  have hctx1 : buildGroupContext [[b1], [b2]] 1 = [b2.text, b1.text] := by
    simp [buildGroupContext, lastN]
  have hskip1 : ¬(pyStrip (restore_deformed_text b1.text
      [b1.text, b2.text]).data = []) := restore_strip_ne b1.text _ hs1
  have hskip2 : ¬(pyStrip (restore_deformed_text b2.text
      [b2.text, b1.text]).data = []) := restore_strip_ne b2.text _ hs2
  have hstep1 : renderBlockStep [b1.text, b2.text]
      ((none : Option String), 0, "") b1
      = (some "paragraph", b1.page_num,
         "" ++ (inlineFormat b1.is_bold b1.is_italic
           (restore_deformed_text b1.text [b1.text, b2.text]) ++ "\n\n")) := by
    simp [renderBlockStep, hskip1, ht1]
  have hstep2 : ∀ A : String, renderBlockStep [b2.text, b1.text]
      (some "paragraph", b1.page_num, A) b2
      = (some "paragraph", b2.page_num,
         (A ++ pageBreakMarker b2.page_num) ++
           (inlineFormat b2.is_bold b2.is_italic
             (restore_deformed_text b2.text [b2.text, b1.text]) ++ "\n\n")) := by
    intro A
    simp [renderBlockStep, hskip2, ht2, hp1, hp2]
  have hfold : convert_to_markdown [b1, b2]
      = (renderBlockStep (buildGroupContext [[b1], [b2]] 1)
          (renderBlockStep (buildGroupContext [[b1], [b2]] 0)
            ((none : Option String), 0, "") b1) b2).2.2 := by
    unfold convert_to_markdown
    rw [if_neg (by simp), hgroups]
    rfl
  have hout : convert_to_markdown [b1, b2]
      = (("" ++ (inlineFormat b1.is_bold b1.is_italic
            (restore_deformed_text b1.text [b1.text, b2.text]) ++ "\n\n"))
          ++ pageBreakMarker b2.page_num) ++
          (inlineFormat b2.is_bold b2.is_italic
            (restore_deformed_text b2.text [b2.text, b1.text]) ++ "\n\n") := by
    rw [hfold, hctx0, hctx1, hstep1, hstep2]
  have hmarker : pageBreakMarker b2.page_num = "\n\n<!-- Trang 2 -->\n\n" := by
    rw [hp2]; decide
  refine ⟨(inlineFormat b1.is_bold b1.is_italic
      (restore_deformed_text b1.text [b1.text, b2.text])).data ++ ['\n', '\n'],
    (inlineFormat b2.is_bold b2.is_italic
      (restore_deformed_text b2.text [b2.text, b1.text])).data ++ ['\n', '\n'],
    ?_, ?_, ?_, ?_⟩
  · rw [hout, hmarker]
    simp [String.data_append, List.append_assoc]
  · exact List.IsInfix.trans ( inlineFormat_infix b1.is_bold b1.is_italic _)
      ⟨[], ['\n', '\n'], by simp⟩
  · exact List.IsInfix.trans ( inlineFormat_infix b2.is_bold b2.is_italic _)
      ⟨[], ['\n', '\n'], by simp⟩
  · have hd : (convert_to_markdown [b1, b2]).data
        = ((inlineFormat b1.is_bold b1.is_italic
            (restore_deformed_text b1.text [b1.text, b2.text])).data
              ++ ['\n', '\n'])
          ++ ("\n\n<!-- Trang 2 -->\n\n" : String).data
          ++ ((inlineFormat b2.is_bold b2.is_italic
            (restore_deformed_text b2.text [b2.text, b1.text])).data
              ++ ['\n', '\n']) := by
      rw [hout, hmarker]
      simp [String.data_append, List.append_assoc]
    rw [hd]
    rw [List.count_append, List.count_append, List.count_append,
        List.count_append]
    have hc1 : (inlineFormat b1.is_bold b1.is_italic
        (restore_deformed_text b1.text [b1.text, b2.text])).data.count '<' = 0 :=
      List.count_eq_zero.mpr (inline_no_lt _ _ _ (restore_no_lt _ _ hl1))
    have hc2 : (inlineFormat b2.is_bold b2.is_italic
        (restore_deformed_text b2.text [b2.text, b1.text])).data.count '<' = 0 :=
      List.count_eq_zero.mpr (inline_no_lt _ _ _ (restore_no_lt _ _ hl2))
    rw [hc1, hc2]
    decide

/-- C9 witness at two concrete one-block pages. -/
theorem C9_witness :
    (convert_to_markdown
      [sampleBlock "first page text" 11 false 0 10 1,
       sampleBlock "second page text" 11 false 0 10 2]).data.count '<' = 1 := by
  obtain ⟨s1, s2, -, -, -, hcount⟩ :=
    C9_pagebreak (sampleBlock "first page text" 11 false 0 10 1)
      (sampleBlock "second page text" 11 false 0 10 2)
      rfl rfl rfl rfl (by decide) (by decide) (by decide) (by decide)
  exact hcount

/-! ## C5: non-emptiness of extracted block text -/

/-- The merged raw span text of a source block (`block_text` at line 343). -/
def blockRawText (sb : SrcBlock) : List Char :=
  match sb.lines with
  | none => []
  | some lines => (mergeBlock lines).block_text

/-- A character that survives the control filter of `normalize_text` and is
not whitespace. -/
def isVisibleChar (c : Char) : Bool := keepCtrl c && !pyIsSpace c

/-- A one-page document whose single source block holds one span consisting
of the control character `U+0001`: `"\x01".strip()` is truthy, so the block
is created, but normalization removes the character and strips the rest. -/
def C5doc : List (List SrcBlock) :=
  [[{ lines := some [{ spans := [{ text := "\x01", size := 12,
                                   font := "F1", flags := 0 }] }],
      x0 := 0, y0 := 0, x1 := 0, y1 := 0 }]]

/-- C5 (counterexample): extraction can append a block whose normalized text
is empty — a span of control characters passes the `block_text.strip()`
check of line 343 (control characters are not whitespace), and
`normalize_text` then erases everything. -/
theorem C5_counterexample :
    (extract_text_blocks C5doc).map TextBlock.text = [""] := by decide

theorem sub2_subset (p q : Char → Bool) :
    ∀ s : List Char, ∀ c ∈ s, c ∈ sub2 p q s := by
  intro s
  induction s using sub2.induct p q with
  | case1 => simp
  | case2 c => simp [sub2]
  | case3 c₁ c₂ rest h ih =>
    intro c hc
    rw [sub2, if_pos h]
    rcases List.mem_cons.mp hc with h' | h'
    · simp [h']
    · rcases List.mem_cons.mp h' with h'' | h''
      · simp [h'']
      · simp [ih c (by simp [h''])]
  | case4 c₁ c₂ rest h ih =>
    intro c hc
    rw [sub2, if_neg h]
    rcases List.mem_cons.mp hc with h' | h'
    · simp [h']
    · simp [ih c h']

theorem replaceChar_any (v : Char → Bool) (old : Char) (new : List Char)
    (hrepl : v old = true → new.any v = true) (s : List Char)
    (hs : s.any v = true) : (replaceChar old new s).any v = true := by
  rcases List.any_eq_true.mp hs with ⟨c, hc, hv⟩
  by_cases hco : c = old
  · subst hco
    rcases List.any_eq_true.mp (hrepl hv) with ⟨d, hd, hdv⟩
    exact List.any_eq_true.mpr
      ⟨d, List.mem_flatMap.mpr ⟨c, hc, by simp [replaceChar, hd]⟩, hdv⟩
  · exact List.any_eq_true.mpr
      ⟨c, List.mem_flatMap.mpr ⟨c, hc, by simp [hco]⟩, hv⟩

theorem applyReplacements_any (s : List Char)
    (hs : s.any isVisibleChar = true) :
    (applyReplacements s).any isVisibleChar = true := by
  have hall : ∀ p ∈ replacements,
      isVisibleChar p.1 = true → (p.2.any isVisibleChar) = true := by decide
  unfold applyReplacements
  generalize hres : replacements = rs at hall
  clear hres
  induction rs generalizing s with
  | nil => exact hs
  | cons p rest ih =>
    simp only [List.foldl_cons]
    exact ih _ (replaceChar_any _ p.1 p.2 (hall p (List.mem_cons_self _ _)) s hs)
      (fun q hq => hall q (List.mem_cons_of_mem _ hq))

theorem collapseST_any (v : Char → Bool) (hst : ∀ c, v c = true → isST c = false) :
    ∀ (s : List Char) (b : Bool), s.any v = true → (collapseST b s).any v = true := by
  intro s
  induction s with
  | nil => intro b h; simp at h
  | cons c rest ih =>
    intro b h
    rw [List.any_cons] at h
    rw [collapseST]
    by_cases hc : isST c = true
    · have hvc : v c = false := by
        by_contra hvc
        rw [hst c (by simpa using hvc)] at hc
        simp at hc
      rw [if_pos hc]
      have hrest : rest.any v = true := by
        rcases Bool.or_eq_true _ _ |>.mp h with h' | h'
        · rw [hvc] at h'; simp at h'
        · exact h'
      split
      · exact ih true hrest
      · simp [ih true hrest]
    · rw [if_neg hc]
      rw [List.any_cons]
      rcases Bool.or_eq_true _ _ |>.mp h with h' | h'
      · simp [h']
      · simp [ih false h']

theorem trimTrailAux_any (v : Char → Bool)
    (hst : ∀ c, v c = true → isST c = false ∧ c ≠ '\n') :
    ∀ (s pend : List Char), s.any v = true →
      (trimTrailAux pend s).any v = true := by
  intro s
  induction s with
  | nil => intro pend h; simp at h
  | cons c rest ih =>
    intro pend h
    rw [List.any_cons] at h
    rw [trimTrailAux]
    by_cases hc : isST c = true
    · rw [if_pos hc]
      refine ih (c :: pend) ?_
      rcases Bool.or_eq_true _ _ |>.mp h with h' | h'
      · rw [(by by_contra hvc; exact absurd hc (by simp [(hst c (by simpa using hvc)).1]) : v c = false)] at h'
        simp at h'
      · exact h'
    · rw [if_neg hc]
      by_cases hnl : c = '\n'
      · rw [if_pos hnl]
        rw [List.any_cons]
        rcases Bool.or_eq_true _ _ |>.mp h with h' | h'
        · have : v c = false := by
            by_contra hvc
            exact (hst c (by simpa using hvc)).2 hnl
          rw [this] at h'
          simp at h'
        · simp [ih [] h']
      · rw [if_neg hnl]
        rw [List.any_append, List.any_cons]
        rcases Bool.or_eq_true _ _ |>.mp h with h' | h'
        · simp [h']
        · simp [ih [] h']

theorem dropWhile_any (v p : Char → Bool) (hvp : ∀ c, v c = true → p c = false) :
    ∀ s : List Char, s.any v = true → (s.dropWhile p).any v = true := by
  intro s
  induction s with
  | nil => intro h; simp at h
  | cons c rest ih =>
    intro h
    rw [List.dropWhile]
    by_cases hc : p c = true
    · rw [hc]
      simp only []
      rw [List.any_cons] at h
      rcases Bool.or_eq_true _ _ |>.mp h with h' | h'
      · have : v c = false := by
          by_contra hvc
          rw [hvp c (by simpa using hvc)] at hc
          simp at hc
        rw [this] at h'
        simp at h'
      · exact ih h'
    · rw [Bool.eq_false_iff.mpr hc]
      simpa using h

theorem pyStrip_any (v : Char → Bool) (hvp : ∀ c, v c = true → pyIsSpace c = false)
    (s : List Char) (hs : s.any v = true) : (pyStrip s).any v = true := by
  unfold pyStrip
  rw [List.any_reverse]
  refine dropWhile_any v pyIsSpace hvp _ ?_
  rw [List.any_reverse]
  exact dropWhile_any v pyIsSpace hvp s hs

/-- A raw text with a visible character normalizes to a non-empty text. -/
theorem normalizeList_ne_nil_of_visible (s : List Char)
    (hs : s.any isVisibleChar = true) : normalizeList s ≠ [] := by
  have hvst : ∀ c, isVisibleChar c = true → isST c = false := by
    intro c hc
    rcases Bool.and_eq_true _ _ |>.mp hc with ⟨-, h2⟩
    cases hst : isST c
    · rfl
    · exfalso
      rcases Bool.or_eq_true _ _ |>.mp hst with h | h
      · rw [of_decide_eq_true h] at h2; simp [pyIsSpace] at h2
      · rw [of_decide_eq_true h] at h2; simp [pyIsSpace] at h2
  have hvnl : ∀ c, isVisibleChar c = true → isST c = false ∧ c ≠ '\n' := by
    intro c hc
    refine ⟨hvst c hc, ?_⟩
    rintro rfl
    rcases Bool.and_eq_true _ _ |>.mp hc with ⟨-, h2⟩
    simp [pyIsSpace] at h2
  have hvsp : ∀ c, isVisibleChar c = true → pyIsSpace c = false := by
    intro c hc
    rcases Bool.and_eq_true _ _ |>.mp hc with ⟨-, h2⟩
    simpa using h2
  have h1 : (s.filter keepCtrl).any isVisibleChar = true := by
    rcases List.any_eq_true.mp hs with ⟨c, hc, hv⟩
    refine List.any_eq_true.mpr ⟨c, List.mem_filter.mpr ⟨hc, ?_⟩, hv⟩
    exact (Bool.and_eq_true _ _ |>.mp hv).1
  have h2 : (sub2 isLowerC isUpperC (s.filter keepCtrl)).any isVisibleChar = true := by
    rcases List.any_eq_true.mp h1 with ⟨c, hc, hv⟩
    exact List.any_eq_true.mpr ⟨c, sub2_subset _ _ _ c hc, hv⟩
  have h3 : (sub2 isSentPunct isUpperC (sub2 isLowerC isUpperC
      (s.filter keepCtrl))).any isVisibleChar = true := by
    rcases List.any_eq_true.mp h2 with ⟨c, hc, hv⟩
    exact List.any_eq_true.mpr ⟨c, sub2_subset _ _ _ c hc, hv⟩
  have h4 := applyReplacements_any _ h3
  have h5 := collapseST_any isVisibleChar hvst _ false h4
  have h6 := trimTrailAux_any isVisibleChar hvnl _ [] h5
  have h7 := pyStrip_any isVisibleChar hvsp _ h6
  unfold normalizeList trimTrail
  intro hnil
  rw [hnil] at h7
  simp at h7

theorem extractAux_mem :
    ∀ (pages : List (List SrcBlock)) (acc : List TextBlock) (pn : Nat)
      (b : TextBlock), b ∈ extractAux acc pn pages →
      b ∈ acc ∨ ∃ (pn' : Nat) (sb : SrcBlock) (b₀ : TextBlock),
        mkTextBlock pn' sb = some b₀ ∧ b.text = b₀.text := by
  intro pages
  induction pages with
  | nil =>
    intro acc pn b hb
    exact Or.inl hb
  | cons page rest ih =>
    intro acc pn b hb
    rw [extractAux] at hb
    rcases ih _ _ b hb with h | h
    · rcases List.mem_append.mp h with h' | h'
      · exact Or.inl h'
      · rcases List.mem_map.mp h' with ⟨b₀, hb₀, rfl⟩
        rcases List.mem_filterMap.mp hb₀ with ⟨sb, hsb, hmk⟩
        exact Or.inr ⟨pn, sb, b₀, hmk, rfl⟩
    · exact Or.inr h

theorem mkTextBlock_eq (pn : Nat) (sb : SrcBlock) (lines : List SrcLine)
    (h : sb.lines = some lines) :
    mkTextBlock pn sb
      = if pyStrip (mergeBlock lines).block_text ≠ [] then
          some { text := ⟨normalizeList (mergeBlock lines).block_text⟩,
                 x0 := sb.x0, y0 := sb.y0, x1 := sb.x1, y1 := sb.y1,
                 font_size := if 0 < (mergeBlock lines).font_size
                              then (mergeBlock lines).font_size else 12,
                 font_name := (mergeBlock lines).font_name,
                 is_bold := (mergeBlock lines).is_bold,
                 is_italic := (mergeBlock lines).is_italic,
                 block_type := "paragraph", page_num := pn + 1 }
        else none := by
  unfold mkTextBlock
  rw [h]

/-- C5 (amended): a block created from a source block whose merged raw span
text contains at least one visible character (neither whitespace nor removed
by the control filter) has non-empty text; and every block in the extraction
output takes its text from such a block creation.  (The unamended claim
fails only for source blocks whose spans are entirely control characters and
whitespace.) -/
theorem C5_amended :
    (∀ (pn : Nat) (sb : SrcBlock) (b : TextBlock),
       mkTextBlock pn sb = some b →
       (blockRawText sb).any isVisibleChar = true →
       b.text ≠ "") ∧
    (∀ (doc : List (List SrcBlock)) (b : TextBlock),
       b ∈ extract_text_blocks doc →
       ∃ (pn : Nat) (sb : SrcBlock) (b₀ : TextBlock),
         mkTextBlock pn sb = some b₀ ∧ b.text = b₀.text) := by
  constructor
  · intro pn sb b hmk hvis
    cases hlines : sb.lines with
    | none =>
      unfold mkTextBlock at hmk
      rw [hlines] at hmk
      exact absurd hmk (by simp)
    | some lines =>
      have hvis' : (mergeBlock lines).block_text.any isVisibleChar = true := by
        unfold blockRawText at hvis
        rw [hlines] at hvis
        exact hvis
      rw [mkTextBlock_eq pn sb lines hlines] at hmk
      have hne := normalizeList_ne_nil_of_visible _ hvis'
      split at hmk
      · have hb := Option.some_inj.mp hmk
        have htext : b.text = ⟨normalizeList (mergeBlock lines).block_text⟩ :=
          (congrArg TextBlock.text hb).symm
        rw [htext]
        intro hcon
        have hdata : normalizeList (mergeBlock lines).block_text = [] := by
          have hd := congrArg String.data hcon
          simpa using hd
        exact hne hdata
      · exact absurd hmk (by simp)
  · intro doc b hb
    rcases extractAux_mem doc [] 0 b hb with h | h
    · simp at h
    · exact h

/-- C5 witness: a concrete source block with visible text yields a block with
non-empty text via the amended theorem. -/
theorem C5_witness :
    (mkTextBlock 0
      { lines := some [{ spans := [{ text := " ab 12 ", size := 10,
                                     font := "F1", flags := 16 }] }],
        x0 := 0, y0 := 0, x1 := 0, y1 := 0 }).elim False
      (fun b => b.text ≠ "") := by
  cases hmk : mkTextBlock 0
      { lines := some [{ spans := [{ text := " ab 12 ", size := 10,
                                     font := "F1", flags := 16 }] }],
        x0 := 0, y0 := 0, x1 := 0, y1 := 0 } with
  | none => exact absurd hmk (by decide)
  | some b =>
    simp only [Option.elim]
    exact C5_amended.1 0 _ b hmk (by decide)

/-! ## C6 (amended): idempotence of `normalize_text` on ellipsis-free input

The second pass of `normalize_text` is the identity on first-pass output.
The development shows, stage by stage, that the output of the first pass
satisfies the fixpoint conditions of every stage: all characters survive the
control filter; no adjacent pair matches either space-insertion pattern; no
replacement key remains; no tab and no two adjacent spaces/tabs survive
collapsing; no space/tab sits before a newline or at the end; and the ends
are not whitespace.  The single exception is the ellipsis: `'…' → "..."`
can manufacture a fresh `[.!?][A-Z…]` pair (see `C6_counterexample`), hence
the ellipsis-free hypothesis. -/

/-- No two adjacent characters of the list match `p` then `q`. -/
def noPair (p q : Char → Bool) : List Char → Bool
  | [] => true
  | [_] => true
  | c₁ :: c₂ :: rest => !(p c₁ && q c₂) && noPair p q (c₂ :: rest)

theorem noPair_cons₂ {p q : Char → Bool} {c₁ c₂ : Char} {z : List Char} :
    noPair p q (c₁ :: c₂ :: z) = true ↔
      (p c₁ && q c₂) = false ∧ noPair p q (c₂ :: z) = true := by
  show (!(p c₁ && q c₂) && noPair p q (c₂ :: z)) = true ↔ _
  rw [Bool.and_eq_true, Bool.not_eq_true']

theorem noPair_tail {p q : Char → Bool} {c : Char} {z : List Char}
    (h : noPair p q (c :: z) = true) : noPair p q z = true := by
  cases z with
  | nil => rfl
  | cons d rest => exact (noPair_cons₂.mp h).2

theorem noPair_cons_iff {p q : Char → Bool} {c : Char} {z : List Char} :
    noPair p q (c :: z) = true ↔
      (∀ h, z.head? = some h → (p c && q h) = false) ∧ noPair p q z = true := by
  cases z with
  | nil => simp [noPair]
  | cons d rest =>
    rw [noPair_cons₂]
    constructor
    · rintro ⟨h1, h2⟩
      refine ⟨?_, h2⟩
      intro h hh
      rw [List.head?_cons, Option.some_inj] at hh
      subst hh
      exact h1
    · rintro ⟨h1, h2⟩
      exact ⟨h1 d rfl, h2⟩

theorem noPair_cons_of_pfalse {p q : Char → Bool} {c : Char} {z : List Char}
    (hp : p c = false) (hz : noPair p q z = true) :
    noPair p q (c :: z) = true := by
  rw [noPair_cons_iff]
  exact ⟨fun h _ => by simp [hp], hz⟩

theorem noPair_append_right {p q : Char → Bool} :
    ∀ {a z : List Char}, noPair p q (a ++ z) = true → noPair p q z = true := by
  intro a
  induction a with
  | nil => intro z h; exact h
  | cons c rest ih =>
    intro z h
    exact ih (noPair_tail h)

theorem noPair_append_left {p q : Char → Bool} :
    ∀ {z a : List Char}, noPair p q (z ++ a) = true → noPair p q z = true := by
  intro z
  induction z with
  | nil => intro a h; rfl
  | cons c rest ih =>
    intro a h
    rw [List.cons_append] at h
    rcases noPair_cons_iff.mp h with ⟨hhead, htail⟩
    rw [noPair_cons_iff]
    refine ⟨?_, ih htail⟩
    intro d hd
    refine hhead d ?_
    cases rest with
    | nil => simp at hd
    | cons e rest' => simpa using hd

theorem noPair_infix {p q : Char → Bool} {a t b s : List Char}
    (hs : s = a ++ t ++ b) (h : noPair p q s = true) : noPair p q t = true := by
  subst hs
  rw [List.append_assoc] at h
  exact noPair_append_left (noPair_append_right h)

theorem noPair_append_cons {p q : Char → Bool} :
    ∀ {a : List Char} {c : Char} {z : List Char} {x : Char},
      noPair p q (a ++ c :: z) = true → a.getLast? = some x →
      (p x && q c) = false := by
  intro a
  induction a with
  | nil => intro c z x h hx; simp at hx
  | cons d rest ih =>
    intro c z x h hx
    cases rest with
    | nil =>
      simp only [List.getLast?_singleton, Option.some_inj] at hx
      subst hx
      simpa using (noPair_cons₂.mp h).1
    | cons e rest' =>
      rw [List.cons_append] at h
      refine ih (noPair_tail h) ?_
      simpa [List.getLast?_cons_cons] using hx

/-- The last character, when present, is not a space or tab. -/
def lastOk (s : List Char) : Bool := s.getLast?.all fun c => !isST c

/-- Stage fixpoint: the control filter. -/
theorem filter_keepCtrl_id (s : List Char) (h : s.all keepCtrl = true) :
    s.filter keepCtrl = s :=
  List.filter_eq_self.mpr (List.all_eq_true.mp h)

/-- Stage fixpoint: a pattern substitution with no matching pair is the
identity. -/
theorem sub2_id (p q : Char → Bool) :
    ∀ s : List Char, noPair p q s = true → sub2 p q s = s := by
  intro s
  induction s using sub2.induct p q with
  | case1 => intro h; rfl
  | case2 c => intro h; rfl
  | case3 c₁ c₂ rest hpq ih =>
    intro h
    exact absurd (noPair_cons₂.mp h).1 (by simp [hpq])
  | case4 c₁ c₂ rest hpq ih =>
    intro h
    rw [sub2, if_neg hpq, ih (noPair_tail h)]

theorem replaceChar_self (c : Char) (s : List Char) :
    replaceChar c [c] s = s := by
  unfold replaceChar
  induction s with
  | nil => rfl
  | cons d rest ih =>
    rw [List.flatMap_cons]
    by_cases h : d = c
    · subst h; simpa using ih
    · simp only [if_neg h]
      simpa using ih

theorem replaceChar_id_of_not_mem (old : Char) (new s : List Char)
    (h : old ∉ s) : replaceChar old new s = s := by
  unfold replaceChar
  induction s with
  | nil => rfl
  | cons d rest ih =>
    rw [List.flatMap_cons]
    rw [if_neg (fun hd => h (by rw [← hd]; exact List.mem_cons_self d rest))]
    have := ih (fun hm => h (List.mem_cons_of_mem d hm))
    simpa using this

/-- Stage fixpoint: the replacement table on a string without the five
non-identity keys. -/
theorem applyReplacements_id (s : List Char)
    (h : s.all (fun c => !(['“', '”', '‘', '’', '…'].contains c)) = true) :
    applyReplacements s = s := by
  have hmem : ∀ k ∈ ['“', '”', '‘', '’', '…'], k ∉ s := by
    intro k hk hmem
    have hh := List.all_eq_true.mp h k hmem
    simp only [Bool.not_eq_true'] at hh
    fin_cases hk <;> simp_all
  unfold applyReplacements replacements
  simp only [List.foldl_cons, List.foldl_nil]
  rw [replaceChar_self, replaceChar_self, replaceChar_self, replaceChar_self]
  rw [replaceChar_id_of_not_mem '“' _ _ (hmem '“' (by simp))]
  rw [replaceChar_id_of_not_mem '”' _ _ (hmem '”' (by simp))]
  rw [replaceChar_id_of_not_mem '‘' _ _ (hmem '‘' (by simp))]
  rw [replaceChar_id_of_not_mem '’' _ _ (hmem '’' (by simp))]
  rw [replaceChar_id_of_not_mem '…' _ _ (hmem '…' (by simp))]

/-- Stage fixpoint: collapsing on a string with no tab and no two adjacent
spaces/tabs. -/
theorem collapseST_id :
    ∀ s : List Char, s.all (fun c => !(c == '\t')) = true →
      noPair isST isST s = true →
      collapseST false s = s ∧
      (s.head?.all (fun h => !isST h) = true → collapseST true s = s) := by
  intro s
  induction s with
  | nil => intro h1 h2; exact ⟨rfl, fun _ => rfl⟩
  | cons c rest ih =>
    intro h1 h2
    rw [List.all_cons] at h1
    obtain ⟨hc1, hrest1⟩ := Bool.and_eq_true _ _ |>.mp h1
    obtain ⟨ihf, iht⟩ := ih hrest1 (noPair_tail h2)
    by_cases hst : isST c = true
    · have hcsp : c = ' ' := by
        rcases Bool.or_eq_true _ _ |>.mp hst with h | h
        · exact of_decide_eq_true h
        · exact absurd (of_decide_eq_true h) (by simpa using hc1)
      have hresthead : rest.head?.all (fun h => !isST h) = true := by
        cases hr : rest.head? with
        | none => rfl
        | some d =>
          rcases noPair_cons_iff.mp h2 with ⟨hh, -⟩
          have := hh d hr
          rw [hst] at this
          simpa using this
      constructor
      · rw [collapseST, if_pos hst, if_neg (by simp), iht hresthead, hcsp]
      · intro hguard
        rw [List.head?_cons] at hguard
        simp only [Option.all_some] at hguard
        rw [hst] at hguard
        simp at hguard
    · constructor
      · rw [collapseST, if_neg hst, ihf]
      · intro _
        rw [collapseST, if_neg hst, ihf]

/-! ### Heads, `all`-facts and small helpers -/

theorem head?_dropWhile_not (p : Char → Bool) :
    ∀ (s : List Char) (h : Char), (s.dropWhile p).head? = some h → p h = false := by
  intro s
  induction s with
  | nil => intro h hh; simp [List.dropWhile] at hh
  | cons c rest ih =>
    intro h hh
    rw [List.dropWhile] at hh
    by_cases hc : p c = true
    · rw [hc] at hh
      exact ih h hh
    · rw [Bool.eq_false_iff.mpr hc] at hh
      simp only [List.head?_cons, Option.some_inj] at hh
      subst hh
      simpa using hc

theorem dropWhile_eq_self_of_head (p : Char → Bool) (s : List Char)
    (h : s.head?.all (fun c => !p c) = true) : s.dropWhile p = s := by
  cases s with
  | nil => rfl
  | cons c rest =>
    rw [List.head?_cons] at h
    simp only [Option.all_some] at h
    have hpc : p c = false := by simpa using h
    rw [List.dropWhile, hpc]

/-- Stage fixpoint: `strip()` on a string whose ends are not whitespace. -/
theorem pyStrip_id (s : List Char)
    (hhead : s.head?.all (fun c => !pyIsSpace c) = true)
    (hlast : s.getLast?.all (fun c => !pyIsSpace c) = true) :
    pyStrip s = s := by
  unfold pyStrip
  rw [dropWhile_eq_self_of_head _ _ hhead]
  rw [dropWhile_eq_self_of_head _ _ (by rw [List.head?_reverse]; exact hlast)]
  exact List.reverse_reverse s

theorem pyStrip_infix (s : List Char) : ∃ a b, s = a ++ pyStrip s ++ b := by
  obtain ⟨a, ha⟩ := List.dropWhile_suffix (l := s) pyIsSpace
  obtain ⟨c, hc⟩ :=
    List.dropWhile_suffix (l := (s.dropWhile pyIsSpace).reverse) pyIsSpace
  refine ⟨a, c.reverse, ?_⟩
  have hpre : pyStrip s ++ c.reverse = s.dropWhile pyIsSpace := by
    unfold pyStrip
    have h2 := congrArg List.reverse hc
    rw [List.reverse_append, List.reverse_reverse] at h2
    exact h2
  rw [List.append_assoc, hpre, ha]

theorem all_infix {P : Char → Bool} {a t b s : List Char}
    (hs : s = a ++ t ++ b) (h : s.all P = true) : t.all P = true := by
  subst hs
  rw [List.all_append, List.all_append] at h
  exact (Bool.and_eq_true _ _ |>.mp (Bool.and_eq_true _ _ |>.mp h).1).2

theorem pyStrip_head_ok (s : List Char) :
    (pyStrip s).head?.all (fun c => !pyIsSpace c) = true := by
  obtain ⟨c, hc⟩ :=
    List.dropWhile_suffix (l := (s.dropWhile pyIsSpace).reverse) pyIsSpace
  have hpre : pyStrip s ++ c.reverse = s.dropWhile pyIsSpace := by
    unfold pyStrip
    have := congrArg List.reverse hc
    rw [List.reverse_append, List.reverse_reverse] at this
    exact this
  cases hh : (pyStrip s).head? with
  | none => rfl
  | some h =>
    simp only [Option.all_some]
    have hne : pyStrip s ≠ [] := by
      intro hnil
      rw [hnil] at hh
      simp at hh
    have : (s.dropWhile pyIsSpace).head? = some h := by
      rw [← hpre]
      cases hps : pyStrip s with
      | nil => exact absurd hps hne
      | cons d rest =>
        rw [hps] at hh
        simp only [List.head?_cons, Option.some_inj] at hh
        subst hh
        simp
    rw [head?_dropWhile_not pyIsSpace s h this]
    rfl

theorem pyStrip_last_ok (s : List Char) :
    (pyStrip s).getLast?.all (fun c => !pyIsSpace c) = true := by
  unfold pyStrip
  rw [List.getLast?_reverse]
  cases hh : ((s.dropWhile pyIsSpace).reverse.dropWhile pyIsSpace).head? with
  | none => rfl
  | some h =>
    simp only [Option.all_some]
    rw [head?_dropWhile_not pyIsSpace _ h hh]
    rfl

theorem isST_isSpace {c : Char} (h : isST c = true) : pyIsSpace c = true := by
  rcases Bool.or_eq_true _ _ |>.mp h with h' | h'
  · rw [of_decide_eq_true h']; decide
  · rw [of_decide_eq_true h']; decide

theorem pyStrip_lastOk (s : List Char) : lastOk (pyStrip s) = true := by
  have := pyStrip_last_ok s
  unfold lastOk
  cases hh : (pyStrip s).getLast? with
  | none => rfl
  | some c =>
    rw [hh] at this
    simp only [Option.all_some] at this ⊢
    cases hst : isST c
    · rfl
    · rw [isST_isSpace hst] at this
      simp at this

/-! ### `sub2`: heads, preservation, establishment, `all` -/

theorem sub2_head (p q : Char → Bool) :
    ∀ s : List Char, (sub2 p q s).head? = s.head? := by
  intro s
  cases s with
  | nil => rfl
  | cons c rest =>
    cases rest with
    | nil => rfl
    | cons d rest' =>
      rw [sub2]
      split <;> rfl

theorem sub2_all (p q : Char → Bool) (P : Char → Bool) (hP : P ' ' = true) :
    ∀ s : List Char, s.all P = true → (sub2 p q s).all P = true := by
  intro s
  induction s using sub2.induct p q with
  | case1 => intro h; exact h
  | case2 c => intro h; exact h
  | case3 c₁ c₂ rest hpq ih =>
    intro h
    simp only [List.all_cons] at h
    rcases Bool.and_eq_true _ _ |>.mp h with ⟨h1, h23⟩
    rcases Bool.and_eq_true _ _ |>.mp h23 with ⟨h2, h3⟩
    rw [sub2, if_pos hpq]
    simp [h1, h2, hP, ih h3]
  | case4 c₁ c₂ rest hpq ih =>
    intro h
    simp only [List.all_cons] at h
    rcases Bool.and_eq_true _ _ |>.mp h with ⟨h1, h23⟩
    rw [sub2, if_neg hpq]
    simp [h1, ih h23]

theorem sub2_noPair_self (p q : Char → Bool)
    (hp : p ' ' = false) (hq : q ' ' = false)
    (hdisj : ∀ c, q c = true → p c = false) :
    ∀ s : List Char, noPair p q (sub2 p q s) = true := by
  intro s
  induction s using sub2.induct p q with
  | case1 => rfl
  | case2 c => rfl
  | case3 c₁ c₂ rest hpq ih =>
    rw [sub2, if_pos hpq]
    have hq2 : q c₂ = true := (Bool.and_eq_true _ _ |>.mp hpq).2
    refine noPair_cons_iff.mpr ⟨?_, ?_⟩
    · intro h hh
      simp only [List.head?_cons, Option.some_inj] at hh
      subst hh
      simp [hq]
    · refine noPair_cons_of_pfalse hp ?_
      refine noPair_cons_iff.mpr ⟨?_, ih⟩
      intro h hh
      rw [sub2_head] at hh
      simp [hdisj c₂ hq2]
  | case4 c₁ c₂ rest hpq ih =>
    rw [sub2, if_neg hpq]
    refine noPair_cons_iff.mpr ⟨?_, ih⟩
    intro h hh
    rw [sub2_head] at hh
    simp only [List.head?_cons, Option.some_inj] at hh
    subst hh
    simpa using hpq

theorem sub2_noPair_preserve (p q p' q' : Char → Bool)
    (hp' : p' ' ' = false) (hq' : q' ' ' = false) :
    ∀ s : List Char, noPair p' q' s = true →
      noPair p' q' (sub2 p q s) = true := by
  intro s
  induction s using sub2.induct p q with
  | case1 => intro h; exact h
  | case2 c => intro h; exact h
  | case3 c₁ c₂ rest hpq ih =>
    intro h
    rw [sub2, if_pos hpq]
    refine noPair_cons_iff.mpr ⟨?_, ?_⟩
    · intro x hx
      simp only [List.head?_cons, Option.some_inj] at hx
      subst hx
      simp [hq']
    · refine noPair_cons_of_pfalse hp' ?_
      refine noPair_cons_iff.mpr ⟨?_, ih (noPair_tail (noPair_tail h))⟩
      intro x hx
      rw [sub2_head] at hx
      exact (noPair_cons_iff.mp (noPair_tail h)).1 x hx
  | case4 c₁ c₂ rest hpq ih =>
    intro h
    rw [sub2, if_neg hpq]
    refine noPair_cons_iff.mpr ⟨?_, ih (noPair_tail h)⟩
    intro x hx
    rw [sub2_head] at hx
    exact (noPair_cons_iff.mp h).1 x hx

/-! ### `replaceChar`: map form, `all`, pair preservation, key elimination -/

theorem replaceChar_all (old : Char) (new : List Char) (P : Char → Bool)
    (hnew : new.all P = true) :
    ∀ s : List Char, s.all P = true → (replaceChar old new s).all P = true := by
  intro s
  induction s with
  | nil => intro h; rfl
  | cons c rest ih =>
    intro h
    simp only [List.all_cons] at h
    rcases Bool.and_eq_true _ _ |>.mp h with ⟨h1, h2⟩
    unfold replaceChar at ih ⊢
    rw [List.flatMap_cons, List.all_append]
    refine Bool.and_eq_true _ _ |>.mpr ⟨?_, ih h2⟩
    split
    · exact hnew
    · simpa using h1

theorem replaceChar_map (old v : Char) :
    ∀ s : List Char,
      replaceChar old [v] s = s.map fun c => if c = old then v else c := by
  intro s
  induction s with
  | nil => rfl
  | cons c rest ih =>
    unfold replaceChar at ih ⊢
    rw [List.flatMap_cons, List.map_cons, ih]
    split <;> rfl

theorem map_subst_noPair (p q : Char → Bool) (old v : Char)
    (hv : p v = false ∧ q v = false) :
    ∀ s : List Char, noPair p q s = true →
      noPair p q (s.map fun c => if c = old then v else c) = true := by
  intro s
  induction s with
  | nil => intro h; rfl
  | cons c rest ih =>
    intro h
    rw [List.map_cons]
    refine noPair_cons_iff.mpr ⟨?_, ih (noPair_tail h)⟩
    intro x hx
    rw [List.head?_map] at hx
    cases hr : rest.head? with
    | none => rw [hr] at hx; simp at hx
    | some d =>
      rw [hr] at hx
      simp only [Option.map_some', Option.some_inj] at hx
      subst hx
      by_cases hdo : d = old
      · rw [if_pos hdo]
        simp [hv.2]
      · rw [if_neg hdo]
        by_cases hco : c = old
        · rw [if_pos hco]
          simp [hv.1]
        · rw [if_neg hco]
          exact (noPair_cons_iff.mp h).1 d hr

theorem replaceChar_kills (old : Char) (new : List Char)
    (hnew : new.all (fun c => !(c == old)) = true) (s : List Char) :
    (replaceChar old new s).all (fun c => !(c == old)) = true := by
  induction s with
  | nil => rfl
  | cons c rest ih =>
    unfold replaceChar at ih ⊢
    rw [List.flatMap_cons, List.all_append]
    refine Bool.and_eq_true _ _ |>.mpr ⟨?_, ih⟩
    split
    · exact hnew
    · next hco => simp [hco]

/-! ### `collapseST`: `all`, establishment and pair preservation -/

theorem collapseST_all (P : Char → Bool) (hP : P ' ' = true) :
    ∀ (s : List Char) (b : Bool), s.all P = true →
      (collapseST b s).all P = true := by
  intro s
  induction s with
  | nil => intro b h; rfl
  | cons c rest ih =>
    intro b h
    simp only [List.all_cons] at h
    rcases Bool.and_eq_true _ _ |>.mp h with ⟨h1, h2⟩
    rw [collapseST]
    by_cases hst : isST c = true
    · rw [if_pos hst]
      split
      · exact ih true h2
      · simp [hP, ih true h2]
    · rw [if_neg hst]
      simp [h1, ih false h2]

theorem collapseST_noTab :
    ∀ (s : List Char) (b : Bool),
      (collapseST b s).all (fun c => !(c == '\t')) = true := by
  intro s
  induction s with
  | nil => intro b; rfl
  | cons c rest ih =>
    intro b
    rw [collapseST]
    by_cases hst : isST c = true
    · rw [if_pos hst]
      split
      · exact ih true
      · simp [ih true]
    · rw [if_neg hst]
      have hc : (c == '\t') = false := by
        cases hq : c == '\t'
        · rfl
        · exfalso
          rw [of_decide_eq_true hq] at hst
          exact hst (by decide)
      simp [hc, ih false]

theorem collapseST_true_head :
    ∀ (s : List Char) (h : Char), (collapseST true s).head? = some h →
      isST h = false := by
  intro s
  induction s with
  | nil => intro h hh; simp [collapseST] at hh
  | cons c rest ih =>
    intro h hh
    rw [collapseST] at hh
    by_cases hst : isST c = true
    · rw [if_pos hst] at hh
      exact ih h (by simpa using hh)
    · rw [if_neg hst] at hh
      simp only [List.head?_cons, Option.some_inj] at hh
      subst hh
      simpa using hst

theorem collapseST_noSS :
    ∀ (s : List Char) (b : Bool),
      noPair isST isST (collapseST b s) = true := by
  intro s
  induction s with
  | nil => intro b; rfl
  | cons c rest ih =>
    intro b
    rw [collapseST]
    by_cases hst : isST c = true
    · rw [if_pos hst]
      split
      · exact ih true
      · refine noPair_cons_iff.mpr ⟨?_, ih true⟩
        intro x hx
        rw [collapseST_true_head rest x hx]
        simp
    · rw [if_neg hst]
      exact noPair_cons_of_pfalse (by simpa using hst) (ih false)

theorem collapseST_false_head :
    ∀ s : List Char, (collapseST false s).head? = none ∨
      (∃ h, (collapseST false s).head? = some h ∧
        (h = ' ' ∨ s.head? = some h)) := by
  intro s
  cases s with
  | nil => exact Or.inl rfl
  | cons c rest =>
    by_cases hst : isST c = true
    · refine Or.inr ⟨' ', ?_, Or.inl rfl⟩
      rw [collapseST, if_pos hst]
      rfl
    · refine Or.inr ⟨c, ?_, Or.inr rfl⟩
      rw [collapseST, if_neg hst]
      rfl

theorem collapseST_noPair (p q : Char → Bool)
    (hp : p ' ' = false) (hq : q ' ' = false) :
    ∀ (s : List Char) (b : Bool), noPair p q s = true →
      noPair p q (collapseST b s) = true := by
  intro s
  induction s with
  | nil => intro b h; rfl
  | cons c rest ih =>
    intro b h
    rw [collapseST]
    by_cases hst : isST c = true
    · rw [if_pos hst]
      split
      · exact ih true (noPair_tail h)
      · exact noPair_cons_of_pfalse hp (ih true (noPair_tail h))
    · rw [if_neg hst]
      refine noPair_cons_iff.mpr ⟨?_, ih false (noPair_tail h)⟩
      intro x hx
      rcases collapseST_false_head rest with hn | ⟨y, hy, hcase⟩
      · rw [hn] at hx; simp at hx
      · rw [hy, Option.some_inj] at hx
        subst hx
        rcases hcase with h' | h'
        · subst h'; simp [hq]
        · exact (noPair_cons_iff.mp h).1 y h'

/-! ### `trimTrailAux`: `all`, heads, establishment, preservation, fixpoint -/

theorem trimTrailAux_all (P : Char → Bool) :
    ∀ (s pend : List Char), s.all P = true → pend.all P = true →
      (trimTrailAux pend s).all P = true := by
  intro s
  induction s with
  | nil => intro pend h1 h2; rfl
  | cons c rest ih =>
    intro pend h1 h2
    simp only [List.all_cons] at h1
    rcases Bool.and_eq_true _ _ |>.mp h1 with ⟨hc, hrest⟩
    rw [trimTrailAux]
    by_cases hst : isST c = true
    · rw [if_pos hst]
      exact ih (c :: pend) hrest (by simp [hc, h2])
    · rw [if_neg hst]
      by_cases hnl : c = '\n'
      · rw [if_pos hnl]
        subst hnl
        simp [hc, ih [] hrest rfl]
      · rw [if_neg hnl]
        rw [List.all_append, List.all_reverse]
        simp [h2, hc, ih [] hrest rfl]

theorem trimTrailAux_head :
    ∀ (s pend : List Char), pend.all isST = true →
      (trimTrailAux pend s).head? = none ∨
      (∃ h, (trimTrailAux pend s).head? = some h ∧
        (isST h = true ∨ h = '\n' ∨ (pend = [] ∧ s.head? = some h))) := by
  intro s
  induction s with
  | nil => intro pend hall; exact Or.inl rfl
  | cons c rest ih =>
    intro pend hall
    rw [trimTrailAux]
    by_cases hst : isST c = true
    · rw [if_pos hst]
      rcases ih (c :: pend) (by simp [hst, hall]) with hn | ⟨h, hh, hcase⟩
      · exact Or.inl hn
      · refine Or.inr ⟨h, hh, ?_⟩
        rcases hcase with h' | h' | ⟨hpend, -⟩
        · exact Or.inl h'
        · exact Or.inr (Or.inl h')
        · exact absurd hpend (by simp)
    · rw [if_neg hst]
      by_cases hnl : c = '\n'
      · rw [if_pos hnl]
        exact Or.inr ⟨'\n', by simp, Or.inr (Or.inl rfl)⟩
      · rw [if_neg hnl]
        cases hp : pend with
        | nil =>
          exact Or.inr ⟨c, by simp, Or.inr (Or.inr ⟨rfl, rfl⟩)⟩
        | cons d ps =>
          have hrev : (d :: ps).reverse ≠ [] := by simp
          cases hhead : ((d :: ps).reverse ++ c :: trimTrailAux [] rest).head? with
          | none =>
            rw [List.head?_append_of_ne_nil _ hrev] at hhead
            cases hr : (d :: ps).reverse with
            | nil => exact absurd hr hrev
            | cons e es => rw [hr] at hhead; simp at hhead
          | some h =>
            refine Or.inr ⟨h, rfl, Or.inl ?_⟩
            rw [List.head?_append_of_ne_nil _ hrev] at hhead
            have hmem : h ∈ (d :: ps).reverse := by
              cases hr : (d :: ps).reverse with
              | nil => exact absurd hr hrev
              | cons e es =>
                rw [hr] at hhead
                simp only [List.head?_cons, Option.some_inj] at hhead
                rw [← hhead]
                exact List.mem_cons_self _ _
            rw [List.mem_reverse] at hmem
            rw [hp] at hall
            exact List.all_eq_true.mp hall h hmem

theorem noPair_append_qfalse {p q : Char → Bool} :
    ∀ (A : List Char) (c : Char) (z : List Char),
      (∀ a ∈ A, q a = false) → q c = false → p c = false →
      noPair p q z = true → noPair p q (A ++ c :: z) = true := by
  intro A
  induction A with
  | nil =>
    intro c z hA hqc hpc hz
    exact noPair_cons_of_pfalse hpc hz
  | cons d A' ih =>
    intro c z hA hqc hpc hz
    rw [List.cons_append]
    refine noPair_cons_iff.mpr
      ⟨?_, ih c z (fun a ha => hA a (List.mem_cons_of_mem _ ha)) hqc hpc hz⟩
    intro x hx
    have hqx : q x = false := by
      cases hA' : A' with
      | nil =>
        rw [hA'] at hx
        simp only [List.nil_append, List.head?_cons, Option.some_inj] at hx
        rw [← hx]
        exact hqc
      | cons e es =>
        rw [hA'] at hx
        simp only [List.cons_append, List.head?_cons, Option.some_inj] at hx
        rw [← hx]
        exact hA e (List.mem_cons_of_mem _ (by rw [hA']; exact List.mem_cons_self _ _))
    simp [hqx]

theorem trimTrailAux_STNL :
    ∀ (s pend : List Char), pend.all isST = true →
      noPair isST (fun c => c == '\n') (trimTrailAux pend s) = true := by
  intro s
  induction s with
  | nil => intro pend hall; rfl
  | cons c rest ih =>
    intro pend hall
    rw [trimTrailAux]
    by_cases hst : isST c = true
    · rw [if_pos hst]
      exact ih (c :: pend) (by simp [hst, hall])
    · rw [if_neg hst]
      by_cases hnl : c = '\n'
      · rw [if_pos hnl]
        exact noPair_cons_of_pfalse (by decide) (ih [] rfl)
      · rw [if_neg hnl]
        refine noPair_append_qfalse pend.reverse c _ ?_ ?_ ?_ (ih [] rfl)
        · intro a ha
          rw [List.mem_reverse] at ha
          have := List.all_eq_true.mp hall a ha
          have hanl : a ≠ '\n' := by
            intro hcon
            rw [hcon] at this
            exact absurd this (by decide)
          simpa using hanl
        · simpa using hnl
        · simpa using hst

theorem lastOk_cons (c : Char) (l : List Char) (h1 : isST c = false)
    (h2 : lastOk l = true) : lastOk (c :: l) = true := by
  cases l with
  | nil => unfold lastOk; simp [h1]
  | cons d rest =>
    unfold lastOk at h2 ⊢
    rwa [List.getLast?_cons_cons]

theorem lastOk_append_cons (A : List Char) (c : Char) (z : List Char)
    (h : lastOk (c :: z) = true) : lastOk (A ++ c :: z) = true := by
  unfold lastOk at h ⊢
  rwa [List.getLast?_append_cons]

theorem trimTrailAux_lastOk :
    ∀ (s pend : List Char), lastOk (trimTrailAux pend s) = true := by
  intro s
  induction s with
  | nil => intro pend; rfl
  | cons c rest ih =>
    intro pend
    rw [trimTrailAux]
    by_cases hst : isST c = true
    · rw [if_pos hst]
      exact ih (c :: pend)
    · rw [if_neg hst]
      by_cases hnl : c = '\n'
      · rw [if_pos hnl]
        exact lastOk_cons '\n' _ (by decide) (ih [])
      · rw [if_neg hnl]
        exact lastOk_append_cons _ c _ (lastOk_cons c _ (by simpa using hst) (ih []))

theorem noPair_append_congr {p q : Char → Bool} :
    ∀ (A z z' : List Char), noPair p q (A ++ z) = true →
      noPair p q z' = true →
      (∀ h, z'.head? = some h → (z.head? = some h ∨ q h = false)) →
      noPair p q (A ++ z') = true := by
  intro A
  induction A with
  | nil => intro z z' h hz' hh; exact hz'
  | cons a A' ih =>
    intro z z' h hz' hh
    rw [List.cons_append] at h ⊢
    refine noPair_cons_iff.mpr ⟨?_, ih z z' (noPair_tail h) hz' hh⟩
    intro x hx
    cases hA' : A' with
    | nil =>
      rw [hA'] at hx
      rw [List.nil_append] at hx
      rcases hh x hx with h' | h'
      · refine (noPair_cons_iff.mp h).1 x ?_
        rw [hA', List.nil_append]
        exact h'
      · simp [h']
    | cons e es =>
      rw [hA'] at hx
      simp only [List.cons_append, List.head?_cons, Option.some_inj] at hx
      refine (noPair_cons_iff.mp h).1 x ?_
      rw [hA']
      simp [hx]

theorem trimTrailAux_noPair (p q : Char → Bool)
    (hpnl : p '\n' = false) (hqnl : q '\n' = false)
    (hside : (∀ b, isST b = true → q b = false) ∨
             (∀ a, isST a = false → a ≠ '\n' → p a = false)) :
    ∀ (s pend : List Char), pend.all isST = true →
      noPair p q (pend.reverse ++ s) = true →
      noPair p q (trimTrailAux pend s) = true := by
  intro s
  induction s with
  | nil => intro pend hall h; rfl
  | cons c rest ih =>
    intro pend hall h
    rw [trimTrailAux]
    by_cases hst : isST c = true
    · rw [if_pos hst]
      refine ih (c :: pend) (by simp [hst, hall]) ?_
      have heq : (c :: pend).reverse ++ rest = pend.reverse ++ c :: rest := by
        simp
      rw [heq]
      exact h
    · rw [if_neg hst]
      have hrest : noPair p q rest = true :=
        noPair_tail (noPair_append_right h)
      by_cases hnl : c = '\n'
      · rw [if_pos hnl]
        exact noPair_cons_of_pfalse (hnl ▸ hpnl) (ih [] rfl hrest)
      · rw [if_neg hnl]
        have hz' : noPair p q (c :: trimTrailAux [] rest) = true := by
          refine noPair_cons_iff.mpr ⟨?_, ih [] rfl hrest⟩
          intro x hx
          rcases trimTrailAux_head rest [] rfl with hn | ⟨y, hy, hcase⟩
          · rw [hn] at hx; simp at hx
          · rw [hy, Option.some_inj] at hx
            subst hx
            rcases hcase with h' | h' | ⟨-, h'⟩
            · rcases hside with hs1 | hs2
              · simp [hs1 y h']
              · simp [hs2 c (by simpa using hst) hnl]
            · subst h'
              simp [hqnl]
            · exact (noPair_cons_iff.mp (noPair_append_right h)).1 y h'
        have hAz : noPair p q (pend.reverse ++ c :: rest) = true := h
        refine noPair_append_congr (pend.reverse) (c :: rest)
          (c :: trimTrailAux [] rest) hAz hz' ?_
        intro x hx
        rw [List.head?_cons, Option.some_inj] at hx
        subst hx
        exact Or.inl rfl

theorem trimTrailAux_id :
    ∀ (s pend : List Char), pend.all isST = true →
      noPair isST (fun c => c == '\n') (pend.reverse ++ s) = true →
      lastOk (pend.reverse ++ s) = true →
      trimTrailAux pend s = pend.reverse ++ s := by
  intro s
  induction s with
  | nil =>
    intro pend hall hnp hlast
    cases hp : pend with
    | nil => rfl
    | cons c ps =>
      exfalso
      subst hp
      rw [List.append_nil] at hlast
      unfold lastOk at hlast
      rw [List.getLast?_reverse, List.head?_cons] at hlast
      simp only [Option.all_some] at hlast
      have hst : isST c = true := List.all_eq_true.mp hall c (List.mem_cons_self _ _)
      rw [hst] at hlast
      simp at hlast
  | cons c rest ih =>
    intro pend hall hnp hlast
    rw [trimTrailAux]
    have heq : (c :: pend).reverse ++ rest = pend.reverse ++ c :: rest := by
      simp
    by_cases hst : isST c = true
    · rw [if_pos hst]
      rw [ih (c :: pend) (by simp [hst, hall]) (by rw [heq]; exact hnp)
        (by rw [heq]; exact hlast)]
      rw [heq]
    · rw [if_neg hst]
      by_cases hnl : c = '\n'
      · subst hnl
        rw [if_pos rfl]
        have hpend : pend = [] := by
          cases hp : pend with
          | nil => rfl
          | cons d ps =>
            exfalso
            subst hp
            have hx : ((d :: ps).reverse).getLast? = some d := by
              rw [List.getLast?_reverse]
              rfl
            have hjunction := noPair_append_cons hnp hx
            have hd : isST d = true :=
              List.all_eq_true.mp hall d (List.mem_cons_self _ _)
            rw [hd] at hjunction
            simp at hjunction
        subst hpend
        simp only [List.reverse_nil, List.nil_append] at hnp hlast ⊢
        have hl2 : lastOk rest = true := by
          cases hr : rest with
          | nil => rfl
          | cons e es =>
            rw [hr] at hlast
            unfold lastOk at hlast ⊢
            rwa [List.getLast?_cons_cons] at hlast
        rw [ih [] rfl (noPair_tail hnp) hl2]
        simp
      · rw [if_neg hnl]
        have hrest : trimTrailAux [] rest = rest := by
          refine ih [] rfl (noPair_tail (noPair_append_right hnp)) ?_
          cases hr : rest with
          | nil => rfl
          | cons e es =>
            unfold lastOk at hlast ⊢
            rw [List.getLast?_append_cons, hr, List.getLast?_cons_cons] at hlast
            exact hlast
        rw [hrest]

/-- Stage fixpoint: trailing-whitespace trimming on a string with no
space/tab before a newline and no trailing space/tab. -/
theorem trimTrail_id (s : List Char)
    (hnp : noPair isST (fun c => c == '\n') s = true)
    (hlast : lastOk s = true) : trimTrail s = s := by
  unfold trimTrail
  have := trimTrailAux_id s [] rfl (by simpa using hnp) (by simpa using hlast)
  simpa using this

/-! ### Character-class disjointness and `applyReplacements` invariants -/

theorem upper_not_lower : ∀ c, isUpperC c = true → isLowerC c = false := by
  intro c h
  have hm : c ∈ upperClassList := by simpa [isUpperC] using h
  have hall : upperClassList.all (fun d => !(lowerClassList.contains d)) = true := by
    decide
  have := List.all_eq_true.mp hall c hm
  simpa [isLowerC] using this

theorem upper_not_punct : ∀ c, isUpperC c = true → isSentPunct c = false := by
  intro c h
  have hm : c ∈ upperClassList := by simpa [isUpperC] using h
  have hall : upperClassList.all (fun d => !(isSentPunct d)) = true := by decide
  have := List.all_eq_true.mp hall c hm
  simpa using this

theorem isST_not_upper : ∀ b, isST b = true → isUpperC b = false := by
  intro b h
  rcases Bool.or_eq_true _ _ |>.mp h with h' | h'
  · rw [of_decide_eq_true h']; decide
  · rw [of_decide_eq_true h']; decide

/-- `all`-preservation through the whole replacement table: the predicate
only has to hold for the characters the table can emit. -/
theorem applyReplacements_all (P : Char → Bool)
    (h1 : P '—' = true) (h2 : P '–' = true) (h3 : P '"' = true)
    (h4 : P '\'' = true) (h5 : P '.' = true) (h6 : P '•' = true)
    (h7 : P '◦' = true) (s : List Char) (h : s.all P = true) :
    (applyReplacements s).all P = true := by
  unfold applyReplacements replacements
  simp only [List.foldl_cons, List.foldl_nil]
  refine replaceChar_all _ _ _ (by simp [h7]) _ ?_
  refine replaceChar_all _ _ _ (by simp [h6]) _ ?_
  refine replaceChar_all _ _ _ (by simp [h5]) _ ?_
  refine replaceChar_all _ _ _ (by simp [h4]) _ ?_
  refine replaceChar_all _ _ _ (by simp [h4]) _ ?_
  refine replaceChar_all _ _ _ (by simp [h3]) _ ?_
  refine replaceChar_all _ _ _ (by simp [h3]) _ ?_
  refine replaceChar_all _ _ _ (by simp [h2]) _ ?_
  exact replaceChar_all _ _ _ (by simp [h1]) _ h

theorem aR_no_ldq (s : List Char) :
    (applyReplacements s).all (fun c => !(c == '“')) = true := by
  unfold applyReplacements replacements
  simp only [List.foldl_cons, List.foldl_nil]
  refine replaceChar_all _ _ _ (by decide) _ ?_
  refine replaceChar_all _ _ _ (by decide) _ ?_
  refine replaceChar_all _ _ _ (by decide) _ ?_
  refine replaceChar_all _ _ _ (by decide) _ ?_
  refine replaceChar_all _ _ _ (by decide) _ ?_
  refine replaceChar_all _ _ _ (by decide) _ ?_
  exact replaceChar_kills '“' _ (by decide) _

theorem aR_no_rdq (s : List Char) :
    (applyReplacements s).all (fun c => !(c == '”')) = true := by
  unfold applyReplacements replacements
  simp only [List.foldl_cons, List.foldl_nil]
  refine replaceChar_all _ _ _ (by decide) _ ?_
  refine replaceChar_all _ _ _ (by decide) _ ?_
  refine replaceChar_all _ _ _ (by decide) _ ?_
  refine replaceChar_all _ _ _ (by decide) _ ?_
  refine replaceChar_all _ _ _ (by decide) _ ?_
  exact replaceChar_kills '”' _ (by decide) _

theorem aR_no_lq (s : List Char) :
    (applyReplacements s).all (fun c => !(c == '‘')) = true := by
  unfold applyReplacements replacements
  simp only [List.foldl_cons, List.foldl_nil]
  refine replaceChar_all _ _ _ (by decide) _ ?_
  refine replaceChar_all _ _ _ (by decide) _ ?_
  refine replaceChar_all _ _ _ (by decide) _ ?_
  refine replaceChar_all _ _ _ (by decide) _ ?_
  exact replaceChar_kills '‘' _ (by decide) _

theorem aR_no_rq (s : List Char) :
    (applyReplacements s).all (fun c => !(c == '’')) = true := by
  unfold applyReplacements replacements
  simp only [List.foldl_cons, List.foldl_nil]
  refine replaceChar_all _ _ _ (by decide) _ ?_
  refine replaceChar_all _ _ _ (by decide) _ ?_
  refine replaceChar_all _ _ _ (by decide) _ ?_
  exact replaceChar_kills '’' _ (by decide) _

theorem aR_no_ell (s : List Char) :
    (applyReplacements s).all (fun c => !(c == '…')) = true := by
  unfold applyReplacements replacements
  simp only [List.foldl_cons, List.foldl_nil]
  refine replaceChar_all _ _ _ (by decide) _ ?_
  refine replaceChar_all _ _ _ (by decide) _ ?_
  exact replaceChar_kills '…' _ (by decide) _

/-- Establishment: after the replacement loop none of the five non-identity
keys remains. -/
theorem applyReplacements_noKeys (s : List Char) :
    (applyReplacements s).all
      (fun c => !(['“', '”', '‘', '’', '…'].contains c)) = true := by
  rw [List.all_eq_true]
  intro c hc
  have h1 := List.all_eq_true.mp (aR_no_ldq s) c hc
  have h2 := List.all_eq_true.mp (aR_no_rdq s) c hc
  have h3 := List.all_eq_true.mp (aR_no_lq s) c hc
  have h4 := List.all_eq_true.mp (aR_no_rq s) c hc
  have h5 := List.all_eq_true.mp (aR_no_ell s) c hc
  simp only [Bool.not_eq_true', beq_eq_false_iff_ne, ne_eq] at h1 h2 h3 h4 h5
  simp [List.contains_cons, h1, h2, h3, h4, h5]

/-- Pair preservation through the replacement loop: on an ellipsis-free
string every step is either the identity or a character-for-character
substitution by `"` or `'`. -/
theorem applyReplacements_noPair (p q : Char → Bool)
    (hdq : p '"' = false ∧ q '"' = false)
    (hap : p '\'' = false ∧ q '\'' = false)
    (s : List Char) (hell : '…' ∉ s) (h : noPair p q s = true) :
    noPair p q (applyReplacements s) = true := by
  have h0 : s.all (fun c => !(c == '…')) = true := by
    rw [List.all_eq_true]
    intro c hc
    simp only [Bool.not_eq_true', beq_eq_false_iff_ne, ne_eq]
    intro he
    rw [he] at hc
    exact hell hc
  have h1 := replaceChar_all '“' ['"'] _ (by decide) s h0
  have h2 := replaceChar_all '”' ['"'] _ (by decide) _ h1
  have h3 := replaceChar_all '‘' ['\''] _ (by decide) _ h2
  have h4 := replaceChar_all '’' ['\''] _ (by decide) _ h3
  have hnm : '…' ∉ replaceChar '’' ['\'']
      (replaceChar '‘' ['\''] (replaceChar '”' ['"']
        (replaceChar '“' ['"'] s))) := by
    intro hmem
    have := List.all_eq_true.mp h4 _ hmem
    simp at this
  unfold applyReplacements replacements
  simp only [List.foldl_cons, List.foldl_nil]
  rw [replaceChar_self '—' s, replaceChar_self '–' s]
  rw [replaceChar_id_of_not_mem '…' _ _ hnm]
  rw [replaceChar_self '•', replaceChar_self '◦']
  rw [replaceChar_map '’' '\'', replaceChar_map '‘' '\'',
    replaceChar_map '”' '"', replaceChar_map '“' '"']
  exact map_subst_noPair p q '’' '\'' hap _
    (map_subst_noPair p q '‘' '\'' hap _
      (map_subst_noPair p q '”' '"' hdq _
        (map_subst_noPair p q '“' '"' hdq _ h)))

/-- The ellipsis survives neither the control filter nor the two spacing
substitutions, so an ellipsis-free input reaches the replacement loop
ellipsis-free. -/
theorem no_ell_stage (s : List Char) (hell : '…' ∉ s) :
    '…' ∉ sub2 isSentPunct isUpperC
      (sub2 isLowerC isUpperC (s.filter keepCtrl)) := by
  have h0 : (s.filter keepCtrl).all (fun c => !(c == '…')) = true := by
    rw [List.all_eq_true]
    intro c hc
    simp only [Bool.not_eq_true', beq_eq_false_iff_ne, ne_eq]
    intro he
    rw [he] at hc
    exact hell (List.mem_filter.mp hc).1
  have h1 := sub2_all isLowerC isUpperC _ (by decide) _ h0
  have h2 := sub2_all isSentPunct isUpperC _ (by decide) _ h1
  intro hmem
  have := List.all_eq_true.mp h2 _ hmem
  simp at this

/-! ### Invariants of `normalizeList`, and its idempotence off the ellipsis -/

theorem normalizeList_all_keepCtrl (s : List Char) :
    (normalizeList s).all keepCtrl = true := by
  unfold normalizeList trimTrail
  obtain ⟨a, b, hab⟩ := pyStrip_infix (trimTrailAux [] (collapseST false
    (applyReplacements (sub2 isSentPunct isUpperC
      (sub2 isLowerC isUpperC (s.filter keepCtrl))))))
  refine all_infix hab ?_
  refine trimTrailAux_all _ _ _ ?_ rfl
  refine collapseST_all _ (by decide) _ _ ?_
  refine applyReplacements_all _ (by decide) (by decide) (by decide) (by decide)
    (by decide) (by decide) (by decide) _ ?_
  refine sub2_all _ _ _ (by decide) _ ?_
  refine sub2_all _ _ _ (by decide) _ ?_
  rw [List.all_eq_true]
  intro c hc
  exact (List.mem_filter.mp hc).2

theorem normalizeList_noPair_LU (s : List Char) (hell : '…' ∉ s) :
    noPair isLowerC isUpperC (normalizeList s) = true := by
  unfold normalizeList trimTrail
  obtain ⟨a, b, hab⟩ := pyStrip_infix (trimTrailAux [] (collapseST false
    (applyReplacements (sub2 isSentPunct isUpperC
      (sub2 isLowerC isUpperC (s.filter keepCtrl))))))
  refine noPair_infix hab ?_
  refine trimTrailAux_noPair _ _ (by decide) (by decide)
    (Or.inl isST_not_upper) _ _ rfl ?_
  rw [List.reverse_nil, List.nil_append]
  refine collapseST_noPair _ _ (by decide) (by decide) _ _ ?_
  refine applyReplacements_noPair _ _ ⟨by decide, by decide⟩
    ⟨by decide, by decide⟩ _ (no_ell_stage s hell) ?_
  refine sub2_noPair_preserve _ _ _ _ (by decide) (by decide) _ ?_
  exact sub2_noPair_self _ _ (by decide) (by decide) upper_not_lower _

theorem normalizeList_noPair_PU (s : List Char) (hell : '…' ∉ s) :
    noPair isSentPunct isUpperC (normalizeList s) = true := by
  unfold normalizeList trimTrail
  obtain ⟨a, b, hab⟩ := pyStrip_infix (trimTrailAux [] (collapseST false
    (applyReplacements (sub2 isSentPunct isUpperC
      (sub2 isLowerC isUpperC (s.filter keepCtrl))))))
  refine noPair_infix hab ?_
  refine trimTrailAux_noPair _ _ (by decide) (by decide)
    (Or.inl isST_not_upper) _ _ rfl ?_
  rw [List.reverse_nil, List.nil_append]
  refine collapseST_noPair _ _ (by decide) (by decide) _ _ ?_
  refine applyReplacements_noPair _ _ ⟨by decide, by decide⟩
    ⟨by decide, by decide⟩ _ (no_ell_stage s hell) ?_
  exact sub2_noPair_self _ _ (by decide) (by decide) upper_not_punct _

theorem normalizeList_noKeys (s : List Char) :
    (normalizeList s).all
      (fun c => !(['“', '”', '‘', '’', '…'].contains c)) = true := by
  unfold normalizeList trimTrail
  obtain ⟨a, b, hab⟩ := pyStrip_infix (trimTrailAux [] (collapseST false
    (applyReplacements (sub2 isSentPunct isUpperC
      (sub2 isLowerC isUpperC (s.filter keepCtrl))))))
  refine all_infix hab ?_
  refine trimTrailAux_all _ _ _ ?_ rfl
  refine collapseST_all _ (by decide) _ _ ?_
  exact applyReplacements_noKeys _

theorem normalizeList_noTab (s : List Char) :
    (normalizeList s).all (fun c => !(c == '\t')) = true := by
  unfold normalizeList trimTrail
  obtain ⟨a, b, hab⟩ := pyStrip_infix (trimTrailAux [] (collapseST false
    (applyReplacements (sub2 isSentPunct isUpperC
      (sub2 isLowerC isUpperC (s.filter keepCtrl))))))
  refine all_infix hab ?_
  refine trimTrailAux_all _ _ _ ?_ rfl
  exact collapseST_noTab _ _

theorem normalizeList_noSS (s : List Char) :
    noPair isST isST (normalizeList s) = true := by
  unfold normalizeList trimTrail
  obtain ⟨a, b, hab⟩ := pyStrip_infix (trimTrailAux [] (collapseST false
    (applyReplacements (sub2 isSentPunct isUpperC
      (sub2 isLowerC isUpperC (s.filter keepCtrl))))))
  refine noPair_infix hab ?_
  refine trimTrailAux_noPair _ _ (by decide) (by decide)
    (Or.inr fun a ha _ => ha) _ _ rfl ?_
  rw [List.reverse_nil, List.nil_append]
  exact collapseST_noSS _ _

theorem normalizeList_STNL (s : List Char) :
    noPair isST (fun c => c == '\n') (normalizeList s) = true := by
  unfold normalizeList trimTrail
  obtain ⟨a, b, hab⟩ := pyStrip_infix (trimTrailAux [] (collapseST false
    (applyReplacements (sub2 isSentPunct isUpperC
      (sub2 isLowerC isUpperC (s.filter keepCtrl))))))
  refine noPair_infix hab ?_
  exact trimTrailAux_STNL _ [] rfl

theorem normalizeList_lastOk (s : List Char) :
    lastOk (normalizeList s) = true := by
  unfold normalizeList
  exact pyStrip_lastOk _

theorem normalizeList_head_ok (s : List Char) :
    (normalizeList s).head?.all (fun c => !pyIsSpace c) = true := by
  unfold normalizeList
  exact pyStrip_head_ok _

theorem normalizeList_last_ok (s : List Char) :
    (normalizeList s).getLast?.all (fun c => !pyIsSpace c) = true := by
  unfold normalizeList
  exact pyStrip_last_ok _

/-- Any string satisfying the post-conditions of `normalizeList` is a fixed
point: every stage of the pipeline is the identity on it. -/
theorem normalizeList_fix (y : List Char)
    (h1 : y.all keepCtrl = true)
    (h2 : noPair isLowerC isUpperC y = true)
    (h3 : noPair isSentPunct isUpperC y = true)
    (h4 : y.all (fun c => !(['“', '”', '‘', '’', '…'].contains c)) = true)
    (h5 : y.all (fun c => !(c == '\t')) = true)
    (h6 : noPair isST isST y = true)
    (h7 : noPair isST (fun c => c == '\n') y = true)
    (h8 : lastOk y = true)
    (h9 : y.head?.all (fun c => !pyIsSpace c) = true)
    (h10 : y.getLast?.all (fun c => !pyIsSpace c) = true) :
    normalizeList y = y := by
  unfold normalizeList
  rw [filter_keepCtrl_id y h1]
  rw [sub2_id isLowerC isUpperC y h2]
  rw [sub2_id isSentPunct isUpperC y h3]
  rw [applyReplacements_id y h4]
  rw [(collapseST_id y h5 h6).1]
  rw [trimTrail_id y h7 h8]
  exact pyStrip_id y h9 h10

/-- On ellipsis-free input `normalizeList` is idempotent. -/
theorem normalizeList_idem (s : List Char) (hell : '…' ∉ s) :
    normalizeList (normalizeList s) = normalizeList s :=
  normalizeList_fix (normalizeList s)
    (normalizeList_all_keepCtrl s)
    (normalizeList_noPair_LU s hell)
    (normalizeList_noPair_PU s hell)
    (normalizeList_noKeys s)
    (normalizeList_noTab s)
    (normalizeList_noSS s)
    (normalizeList_STNL s)
    (normalizeList_lastOk s)
    (normalizeList_head_ok s)
    (normalizeList_last_ok s)

theorem mk_data (l : List Char) : (String.mk l).data = l := rfl

/-- C6 (amended): `normalize_text` is idempotent on every input that does not
contain the ellipsis character `…` — the only replacement whose output
(`...` directly after a capital) can retrigger the sentence-spacing
substitution on a second pass. -/
theorem C6_amended (x : String) (hx : '…' ∉ x.data) :
    normalize_text (normalize_text x) = normalize_text x := by
  have h := normalizeList_idem x.data hx
  unfold normalize_text
  rw [mk_data, h]

/-- C6 witness: the amended idempotence at the concrete ellipsis-free input
`"a.B  c"`. -/
theorem C6_amended_witness :
    '…' ∉ "a.B  c".data ∧
      normalize_text (normalize_text "a.B  c") = normalize_text "a.B  c" :=
  ⟨by decide, C6_amended "a.B  c" (by decide)⟩

end Presso
